import Mathlib

/-!
Verification of the markdown renderer, search aggregator and pipeline of
`app.py` (AI-Research-Assistant-Pro).  The Python regex substitutions are
embedded as executable character-list scanners with the exact leftmost /
non-greedy / lookaround semantics of `re.sub`; recursion that is not
structural on the input list is expressed through a fuel parameter equal to
the list length (proved fuel-irrelevant below), so every definition computes
by kernel reduction.
-/

/-- Python whitespace characters, as matched by `str.strip` and `\s`. -/
def pySpace (c : Char) : Bool :=
  c = ' ' || c = '\t' || c = '\n' || c = '\r' || c = '\x0b' || c = '\x0c'

/-- Python `str.strip()` on a character list. -/
def pyStripL (l : List Char) : List Char :=
  ((l.dropWhile pySpace).reverse.dropWhile pySpace).reverse

/-- Python `str.split('\n')`. -/
def splitLines : List Char → List (List Char)
  | [] => [[]]
  | '\n' :: rest => [] :: splitLines rest
  | c :: rest =>
    match splitLines rest with
    | [] => [[c]]
    | x :: xs => (c :: x) :: xs

/-- Python `'\n'.join(...)`. -/
def joinNL : List (List Char) → List Char
  | [] => []
  | [x] => x
  | x :: xs => x ++ '\n' :: joinNL xs

/-- Closing search of the bold pattern `\*\*(.*?)\*\*`: the earliest `**` in
the list, with the capture (`.` does not cross a newline) before it.  -/
def findCloseBB : List Char → Option (List Char × List Char)
  | [] => none
  | '*' :: '*' :: rest => some ([], rest)
  | '\n' :: _ => none
  | c :: rest => (findCloseBB rest).map (fun pr => (c :: pr.1, pr.2))

/-- Closing search of the display italic pattern `(?<!\*)\*(.*?)\*(?!\*)`:
the earliest `*` whose successor is not `*` (non-greedy expansion walks
over a `*` that fails the lookahead). -/
def findCloseItH : List Char → Option (List Char × List Char)
  | [] => none
  | '*' :: '*' :: rest =>
    (findCloseItH ('*' :: rest)).map (fun pr => ('*' :: pr.1, pr.2))
  | '*' :: rest => some ([], rest)
  | '\n' :: _ => none
  | c :: rest => (findCloseItH rest).map (fun pr => (c :: pr.1, pr.2))

/-- Closing search of the document italic pattern `(?<!\*)\*([^*]+?)\*(?!\*)`:
a nonempty `*`-free capture up to the first `*`, which must not be followed
by another `*`. -/
def findCloseItP : List Char → Option (List Char × List Char)
  | [] => none
  | '*' :: _ => none
  | _ :: '*' :: '*' :: _ => none
  | c :: '*' :: rest => some ([c], rest)
  | c :: rest => (findCloseItP rest).map (fun pr => (c :: pr.1, pr.2))

/-- Characters excluded by the URL pattern class `[^\s<>"{}|\\^[\]]`. -/
def isUrlStop (c : Char) : Bool :=
  pySpace c || c = '<' || c = '>' || c = '"' || c = '\x7b' || c = '\x7d' ||
    c = '|' || c = '\\' || c = '^' || c = '[' || c = ']'

/-- Greedy run of URL characters and the remainder. -/
def urlRun : List Char → List Char × List Char
  | [] => ([], [])
  | c :: rest =>
    if isUrlStop c then ([], c :: rest)
    else
      match urlRun rest with
      | (run, rest2) => (c :: run, rest2)

/-- `re.sub(r'\*\*(.*?)\*\*', op+group+cl, ·)`, fueled. -/
def boldSubF (op cl : List Char) : Nat → List Char → List Char
  | 0, l => l
  | _ + 1, [] => []
  | f + 1, '*' :: '*' :: rest =>
    match findCloseBB rest with
    | some (cap, rest2) => op ++ cap ++ cl ++ boldSubF op cl f rest2
    | none => '*' :: boldSubF op cl f ('*' :: rest)
  | f + 1, c :: rest => c :: boldSubF op cl f rest

def boldSub (op cl l : List Char) : List Char := boldSubF op cl l.length l

/-- `re.sub(r'(?<!\*)\*(.*?)\*(?!\*)', op+group+cl, ·)`, fueled; the Bool
argument records whether the previous character of the original string was
`*` (the negative lookbehind). -/
def italicHF (op cl : List Char) : Nat → Bool → List Char → List Char
  | 0, _, l => l
  | _ + 1, _, [] => []
  | f + 1, prevStar, '*' :: rest =>
    if prevStar then '*' :: italicHF op cl f true rest
    else
      match findCloseItH rest with
      | some (cap, rest2) => op ++ cap ++ cl ++ italicHF op cl f true rest2
      | none => '*' :: italicHF op cl f true rest
  | f + 1, _, c :: rest => c :: italicHF op cl f false rest

def italicSubH (op cl l : List Char) : List Char := italicHF op cl l.length false l

/-- `re.sub(r'(?<!\*)\*([^*]+?)\*(?!\*)', op+group+cl, ·)`, fueled. -/
def italicPF (op cl : List Char) : Nat → Bool → List Char → List Char
  | 0, _, l => l
  | _ + 1, _, [] => []
  | f + 1, prevStar, '*' :: rest =>
    if prevStar then '*' :: italicPF op cl f true rest
    else
      match findCloseItP rest with
      | some (cap, rest2) => op ++ cap ++ cl ++ italicPF op cl f true rest2
      | none => '*' :: italicPF op cl f true rest
  | f + 1, _, c :: rest => c :: italicPF op cl f false rest

def italicSubP (op cl l : List Char) : List Char := italicPF op cl l.length false l

def httpsScheme : List Char := ('h' :: 't' :: 't' :: 'p' :: 's' :: ':' :: '/' :: '/' :: [])

def httpScheme : List Char := ('h' :: 't' :: 't' :: 'p' :: ':' :: '/' :: '/' :: [])

/-- `re.sub(r'(https?://[^\s<>"{}|\\^[\]]+)', mk(url), ·)`, fueled.  At each
position the alternation `https?://` is tried (`https://` and `http://` are
mutually exclusive prefixes); on a scheme hit the greedy nonempty run of URL
characters is consumed and replaced; a scheme with no following URL character
fails the match and scanning continues after it (no later match can start
inside the scheme). -/
def urlSubF (mk : List Char → List Char) : Nat → List Char → List Char
  | 0, l => l
  | _ + 1, [] => []
  | f + 1, c :: rest =>
    if httpsScheme.isPrefixOf (c :: rest) then
      match urlRun ((c :: rest).drop 8) with
      | ([], _) => httpsScheme ++ urlSubF mk f ((c :: rest).drop 8)
      | (run, rest2) => mk (httpsScheme ++ run) ++ urlSubF mk f rest2
    else if httpScheme.isPrefixOf (c :: rest) then
      match urlRun ((c :: rest).drop 7) with
      | ([], _) => httpScheme ++ urlSubF mk f ((c :: rest).drop 7)
      | (run, rest2) => mk (httpScheme ++ run) ++ urlSubF mk f rest2
    else c :: urlSubF mk f rest

def urlSub (mk : List Char → List Char) (l : List Char) : List Char :=
  urlSubF mk l.length l

/-- The display back-end bold pass: `<strong>…</strong>`. -/
def htmlBold (l : List Char) : List Char :=
  boldSub (("<strong>").data) (("</strong>").data) l

/-- The display back-end italic pass: `<em>…</em>`. -/
def htmlItalic (l : List Char) : List Char :=
  italicSubH (("<em>").data) (("</em>").data) l

/-- The display back-end hyperlink replacement. -/
def htmlAnchor (u : List Char) : List Char :=
  ("<a href=\"").data ++ u ++
    ("\" target=\"_blank\" style=\"color: #3b82f6; text-decoration: underline;\">").data ++
    u ++ ("</a>").data

def htmlUrl (l : List Char) : List Char := urlSub htmlAnchor l

/-- The document back-end bold pass: `<b>…</b>`. -/
def pdfBold (l : List Char) : List Char :=
  boldSub (("<b>").data) (("</b>").data) l

/-- The document back-end italic pass: `<i>…</i>`. -/
def pdfItalic (l : List Char) : List Char :=
  italicSubP (("<i>").data) (("</i>").data) l

/-- The document back-end hyperlink replacement. -/
def pdfLinkWrap (u : List Char) : List Char :=
  ("<link href=\"").data ++ u ++ ("\">").data ++ u ++ ("</link>").data

def pdfUrl (l : List Char) : List Char := urlSub pdfLinkWrap l

def h3Open : List Char :=
  ("<h3 style=\"color: #374151; margin-top: 1.5rem; margin-bottom: 0.8rem;\">").data

def h2Open : List Char :=
  ("<h2 style=\"color: #1e40af; margin-top: 2rem; margin-bottom: 1rem; padding-bottom: 0.3rem; border-bottom: 2px solid #e2e8f0;\">").data

def h1Open : List Char :=
  ("<h1 style=\"color: #1e40af; margin-top: 2.5rem; margin-bottom: 1.5rem; padding-bottom: 0.5rem; border-bottom: 3px solid #3b82f6;\">").data

def liOpen : List Char := ("<li style=\"margin-bottom: 0.5rem;\">").data

def pOpen : List Char := ("<p style=\"margin-bottom: 1rem; line-height: 1.6;\">").data

def ulOpen : List Char := ("<ul style=\"margin-bottom: 1.5rem; padding-left: 1.5rem;\">").data

/-- One iteration of `process_markdown_to_html`'s per-line loop: strip, skip
blank lines, classify by prefix, and emit the styled block.  Headings keep
their text untouched; list items get bold then italic on the stripped
remainder; paragraphs get bold, italic, then the hyperlink pass. -/
def process_line (l : List Char) : Option (List Char) :=
  let line := pyStripL l
  if line = [] then none
  else
    match line with
    | '#' :: '#' :: '#' :: ' ' :: rest => some (h3Open ++ rest ++ ("</h3>").data)
    | '#' :: '#' :: ' ' :: rest => some (h2Open ++ rest ++ ("</h2>").data)
    | '#' :: ' ' :: rest => some (h1Open ++ rest ++ ("</h1>").data)
    | '-' :: ' ' :: rest =>
      some (liOpen ++ htmlItalic (htmlBold (pyStripL rest)) ++ ("</li>").data)
    | '*' :: ' ' :: rest =>
      some (liOpen ++ htmlItalic (htmlBold (pyStripL rest)) ++ ("</li>").data)
    | other => some (pOpen ++ htmlUrl (htmlItalic (htmlBold other)) ++ ("</p>").data)

/-- Python `\s*` span: the greedy whitespace run and the remainder. -/
def wsSpan : List Char → List Char × List Char
  | [] => ([], [])
  | c :: rest =>
    if pySpace c then
      match wsSpan rest with
      | (ws, l1) => (c :: ws, l1)
    else ([], c :: rest)

/-- `[^>]*>`: split at the first `>`. -/
def attrSplit : List Char → Option (List Char × List Char)
  | [] => none
  | '>' :: rest => some ([], rest)
  | c :: rest => (attrSplit rest).map (fun pr => (c :: pr.1, pr.2))

/-- `.*?</li>` under DOTALL: split at the first occurrence of `</li>`. -/
def splitLiClose : List Char → Option (List Char × List Char)
  | '<' :: '/' :: 'l' :: 'i' :: '>' :: rest => some ([], rest)
  | [] => none
  | c :: rest => (splitLiClose rest).map (fun pr => (c :: pr.1, pr.2))

/-- A single `<li[^>]*>.*?</li>` match at the head of the list: returns the
matched text and the remainder. -/
def matchLiUnit : List Char → Option (List Char × List Char)
  | '<' :: 'l' :: 'i' :: rest =>
    match attrSplit rest with
    | none => none
    | some (attrs, rest1) =>
      match splitLiClose rest1 with
      | none => none
      | some (body, rest2) =>
        some ('<' :: 'l' :: 'i' :: attrs ++ '>' :: body ++ ("</li>").data, rest2)
  | _ => none

/-- The greedy `(?:\s*<li[^>]*>.*?</li>)*` extension, fueled. -/
def liStarExtF : Nat → List Char → List Char × List Char
  | 0, l => ([], l)
  | f + 1, l =>
    match wsSpan l with
    | (ws, l1) =>
      match matchLiUnit l1 with
      | none => ([], l)
      | some (m, rest) =>
        match liStarExtF f rest with
        | (m2, rest2) => (ws ++ m ++ m2, rest2)

def liStarExt (l : List Char) : List Char × List Char := liStarExtF l.length l

/-- The list-grouping post-pass of the display back-end:
`re.sub(r'(<li[^>]*>.*?</li>(?:\s*<li[^>]*>.*?</li>)*)', ul-wrap, ·, DOTALL)`,
fueled. -/
def wrapListsF : Nat → List Char → List Char
  | 0, l => l
  | f + 1, l =>
    match matchLiUnit l with
    | some (m, rest) =>
      match liStarExt rest with
      | (m2, rest2) => ulOpen ++ m ++ m2 ++ ("</ul>").data ++ wrapListsF f rest2
    | none =>
      match l with
      | [] => []
      | c :: rest => c :: wrapListsF f rest

def wrapLists (l : List Char) : List Char := wrapListsF l.length l

/-- `process_markdown_to_html`: empty input gives `""`; otherwise the lines
are processed one by one, joined with newlines, and the consecutive-`<li>`
grouping post-pass is applied. -/
def process_markdown_to_html (content : String) : String :=
  if content = "" then ""
  else String.mk (wrapLists (joinNL ((splitLines content.data).filterMap process_line)))

/-- The paragraph styles used by `generate_pdf`. -/
inductive PStyle where
  | title
  | heading1
  | heading2
  | heading3
  | normal
deriving DecidableEq

/-- A flow-document element appended by `generate_pdf`: a fixed-height
spacer or a styled paragraph. -/
inductive PBlock where
  | spacer
  | para (text : String) (style : PStyle)
deriving DecidableEq

/-- One iteration of `generate_pdf`'s per-line loop: strip, spacer on blank
lines, apply bold, italic and link substitution to the whole line, then
classify by prefix of the original line and slice the processed line. -/
def pdfProcessLine (l : List Char) : Option PBlock :=
  let line := pyStripL l
  if line = [] then some PBlock.spacer
  else
    let processed := pdfUrl (pdfItalic (pdfBold line))
    match line with
    | '#' :: ' ' :: _ => some (PBlock.para (String.mk (processed.drop 2)) PStyle.heading1)
    | '#' :: '#' :: ' ' :: _ => some (PBlock.para (String.mk (processed.drop 3)) PStyle.heading2)
    | '#' :: '#' :: '#' :: ' ' :: _ => some (PBlock.para (String.mk (processed.drop 4)) PStyle.heading3)
    | '-' :: ' ' :: _ => some (PBlock.para (String.mk ('•' :: ' ' :: processed.drop 2)) PStyle.normal)
    | '*' :: ' ' :: _ => some (PBlock.para (String.mk ('•' :: ' ' :: processed.drop 2)) PStyle.normal)
    | _ => if processed = [] then none else some (PBlock.para (String.mk processed) PStyle.normal)

/-- The body-processing loop of `generate_pdf` (after the title, query and
timestamp header): the flow-document elements produced from the report. -/
def generate_pdf_body (report_content : String) : List PBlock :=
  (splitLines report_content.data).filterMap pdfProcessLine

/-- One entry of a Tavily `results` list, with the optional fields read by
`_format_response`. -/
structure SearchResult where
  title : Option String
  url : Option String
  content : Option String
deriving DecidableEq

/-- A Tavily search response as consumed by `_format_response`. -/
structure SearchResponse where
  answer : Option String
  results : List SearchResult
deriving DecidableEq

/-- The numbered source entries of `_format_response` (`enumerate(…, 1)`). -/
def enumFormat : Nat → List SearchResult → List String
  | _, [] => []
  | i, r :: rs =>
    ("**SOURCE " ++ toString i ++ ":** " ++ r.title.getD ("No title")) ::
    ("**URL:** " ++ r.url.getD ("No URL")) ::
    ("**CONTENT:** " ++ r.content.getD ("No content")) ::
    String.mk (List.replicate 30 '-') ::
    enumFormat (i + 1) rs

/-- `TavilyRetrievalSystem._format_response`: optional insight line followed
by the numbered source entries, joined with newlines. -/
def format_response (r : SearchResponse) : String :=
  let fa :=
    match r.answer with
    | some a => if a = "" then [] else ["**INSIGHT:** " ++ a ++ "\n"]
    | none => []
  String.intercalate "\n" (fa ++ enumFormat 1 r.results)

/-- `TavilyRetrievalSystem.advanced_search`, with the external search calls
abstracted as their outcomes: the primary response (or failure) and the
outcomes of the two targeted searches.  A failing targeted search is
skipped (`except: continue`); a failing primary search raises.  The return
value is `"\n\n" + "="*50 + "\n\n".join(all_results)`. -/
def advanced_search (primary : Except String SearchResponse)
    (extra : List (Except String SearchResponse)) : Except String String :=
  match primary with
  | .error e => .error ("Search failed: " ++ e)
  | .ok resp =>
    let all_results := format_response resp ::
      extra.filterMap (fun x =>
        match x with
        | .ok r => some (format_response r)
        | .error _ => none)
    .ok ("\n\n" ++ String.mk (List.replicate 50 '=') ++ String.intercalate "\n\n" all_results)

/-- The session state held by the shell: the last completed report, if any,
and its query. -/
structure SessionState where
  research_result : Option String
  research_query : String
deriving DecidableEq

/-- The research action of `main`, with the collaborator calls abstracted as
their outcomes: search, then the four agent stages, each aborting the whole
run on failure (the surrounding `try`/`except` shows the error and returns
without touching the session state); both session fields are assigned only
after every stage has succeeded. -/
def runResearch (search : String → Except String String)
    (research : String → String → Except String String)
    (summarize : String → Except String String)
    (critic : String → Except String String)
    (write : String → String → String → Except String String)
    (st0 : SessionState) (query : String) : SessionState :=
  match search query with
  | .error _ => st0
  | .ok sr =>
    match research query sr with
    | .error _ => st0
    | .ok rd =>
      match summarize rd with
      | .error _ => st0
      | .ok sm =>
        match critic sm with
        | .error _ => st0
        | .ok cq =>
          match write rd sm cq with
          | .error _ => st0
          | .ok fr => { research_result := some fr, research_query := query }
/-! ### Branch equations and length facts for the scanners -/

theorem findCloseBB_nil : findCloseBB [] = none := rfl

theorem findCloseBB_bb (rest : List Char) : findCloseBB ('*' :: '*' :: rest) = some ([], rest) := rfl

theorem findCloseBB_star_nil : findCloseBB ['*'] = none := rfl

theorem findCloseBB_cons_ne {c : Char} (hn : c ≠ '\n') (hc : c ≠ '*') (rest : List Char) :
    findCloseBB (c :: rest) = (findCloseBB rest).map (fun pr => (c :: pr.1, pr.2)) := by
  rw [findCloseBB.eq_def]
  split
  · rename_i heq
    exact absurd heq (by simp)
  · rename_i r2 heq
    injection heq with hc' hr'
    exact absurd hc' hc
  · rename_i heq
    injection heq with hc' hr'
    exact absurd hc' hn
  · rename_i c2 r2 hne heq
    injection heq with hc' hr'
    subst hc'
    subst hr'
    rfl

theorem findCloseBB_star_cons_ne {c2 : Char} (hc2 : c2 ≠ '*') (rest : List Char) :
    findCloseBB ('*' :: c2 :: rest) =
      (findCloseBB (c2 :: rest)).map (fun pr => ('*' :: pr.1, pr.2)) := by
  rw [findCloseBB.eq_def]
  split
  · rename_i heq
    exact absurd heq (by simp)
  · rename_i r2 heq
    injection heq with hc' hr'
    injection hr' with hc2' hr2'
    exact absurd hc2' hc2
  · rename_i heq
    injection heq with hc' hr'
    exact absurd hc'.symm (by simp)
  · rename_i c3 r3 hne heq
    injection heq with hc' hr'
    subst hc'
    subst hr'
    rfl

theorem findCloseBB_len :
    ∀ l cap rest2, findCloseBB l = some (cap, rest2) →
      l.length = cap.length + rest2.length + 2 := by
  intro l
  induction l with
  | nil => intro cap r2 h; simp [findCloseBB] at h
  | cons c rest ih =>
    intro cap r2 h
    by_cases hc : c = '*'
    · subst hc
      cases rest with
      | nil => rw [findCloseBB_star_nil] at h; exact absurd h (by simp)
      | cons c2 r =>
        by_cases hc2 : c2 = '*'
        · subst hc2
          rw [findCloseBB_bb] at h
          injection h with h1
          injection h1 with h1 h2
          subst h1; subst h2
          simp
        · rw [findCloseBB_star_cons_ne hc2] at h
          rw [Option.map_eq_some'] at h
          obtain ⟨pr, hpr, heq⟩ := h
          have hl := ih pr.1 pr.2 (by rw [hpr])
          injection heq with h1 h2
          subst h1; subst h2
          simp at hl ⊢
          omega
    · by_cases hn : c = '\n'
      · subst hn; simp [findCloseBB] at h
      · rw [findCloseBB_cons_ne hn hc] at h
        rw [Option.map_eq_some'] at h
        obtain ⟨pr, hpr, heq⟩ := h
        have hl := ih pr.1 pr.2 (by rw [hpr])
        injection heq with h1 h2
        subst h1; subst h2
        simp at hl ⊢
        omega

theorem boldSubF_nil (op cl : List Char) : ∀ f, boldSubF op cl f [] = [] := by
  intro f; cases f <;> rfl

theorem boldSubF_bb_some (op cl : List Char) {rest cap rest2 : List Char} {f : Nat}
    (h : findCloseBB rest = some (cap, rest2)) :
    boldSubF op cl (f + 1) ('*' :: '*' :: rest) = op ++ cap ++ cl ++ boldSubF op cl f rest2 := by
  simp only [boldSubF, h]

theorem boldSubF_bb_none (op cl : List Char) {rest : List Char} {f : Nat}
    (h : findCloseBB rest = none) :
    boldSubF op cl (f + 1) ('*' :: '*' :: rest) = '*' :: boldSubF op cl f ('*' :: rest) := by
  simp only [boldSubF, h]

theorem boldSubF_cons (op cl : List Char) {c : Char} (hc : c ≠ '*') (f : Nat) (rest : List Char) :
    boldSubF op cl (f + 1) (c :: rest) = c :: boldSubF op cl f rest := by
  rw [boldSubF.eq_def]
  split
  · rename_i heq
    omega
  · rename_i heq1 heq
    exact absurd heq (by simp)
  · rename_i f2 r2 heq1 heq
    injection heq with hc' hr'
    exact absurd hc' hc
  · rename_i f2 c2 r2 hne heq1 heq
    injection heq with hc' hr'
    subst hc'
    subst hr'
    obtain rfl : f2 = f := by omega
    rfl

theorem boldSubF_star (op cl : List Char) {c : Char} (hc : c ≠ '*') (f : Nat) (rest : List Char) :
    boldSubF op cl (f + 1) ('*' :: c :: rest) = '*' :: boldSubF op cl f (c :: rest) := by
  rw [boldSubF.eq_def]
  split
  · rename_i heq
    omega
  · rename_i heq1 heq
    exact absurd heq (by simp)
  · rename_i f2 r2 heq1 heq
    injection heq with hc' hr'
    injection hr' with hc2' hr2'
    exact absurd hc2' hc
  · rename_i f2 c2 r2 hne heq1 heq
    injection heq with hc' hr'
    subst hr'
    obtain rfl : c2 = '*' := hc'.symm
    obtain rfl : f2 = f := by omega
    rfl

theorem boldSubF_star_one (op cl : List Char) (f : Nat) :
    boldSubF op cl (f + 1) ['*'] = '*' :: boldSubF op cl f [] := rfl

theorem boldSubF_congr (op cl : List Char) :
    ∀ f g l, l.length ≤ f → l.length ≤ g → boldSubF op cl f l = boldSubF op cl g l := by
  intro f
  induction f with
  | zero =>
    intro g l hf _
    have hl : l = [] := List.length_eq_zero.mp (Nat.le_zero.mp hf)
    subst hl
    rw [boldSubF_nil, boldSubF_nil]
  | succ f ih =>
    intro g l hf hg
    cases l with
    | nil => rw [boldSubF_nil, boldSubF_nil]
    | cons c rest =>
      cases g with
      | zero => simp at hg
      | succ g =>
        by_cases hc : c = '*'
        · subst hc
          cases rest with
          | nil =>
            rw [boldSubF_star_one, boldSubF_star_one, boldSubF_nil, boldSubF_nil]
          | cons c2 r =>
            by_cases hc2 : c2 = '*'
            · subst hc2
              cases hfc : findCloseBB r with
              | none =>
                rw [boldSubF_bb_none op cl hfc, boldSubF_bb_none op cl hfc]
                have h1 : ('*' :: r).length ≤ f := by simp at hf ⊢; omega
                have h2 : ('*' :: r).length ≤ g := by simp at hg ⊢; omega
                rw [ih g ('*' :: r) h1 h2]
              | some pr =>
                obtain ⟨cap, rest2⟩ := pr
                rw [boldSubF_bb_some op cl hfc, boldSubF_bb_some op cl hfc]
                have hlen := findCloseBB_len r cap rest2 hfc
                have h1 : rest2.length ≤ f := by simp at hf; omega
                have h2 : rest2.length ≤ g := by simp at hg; omega
                rw [ih g rest2 h1 h2]
            · rw [boldSubF_star op cl hc2, boldSubF_star op cl hc2]
              have h1 : (c2 :: r).length ≤ f := by simp at hf ⊢; omega
              have h2 : (c2 :: r).length ≤ g := by simp at hg ⊢; omega
              rw [ih g (c2 :: r) h1 h2]
        · rw [boldSubF_cons op cl hc, boldSubF_cons op cl hc]
          have h1 : rest.length ≤ f := by simp at hf; omega
          have h2 : rest.length ≤ g := by simp at hg; omega
          rw [ih g rest h1 h2]

theorem boldSub_nil (op cl : List Char) : boldSub op cl [] = [] := rfl

theorem boldSub_cons (op cl : List Char) {c : Char} (hc : c ≠ '*') (rest : List Char) :
    boldSub op cl (c :: rest) = c :: boldSub op cl rest := by
  show boldSubF op cl (rest.length + 1) (c :: rest) = c :: boldSubF op cl rest.length rest
  rw [boldSubF_cons op cl hc]

theorem boldSub_star_cons (op cl : List Char) {c : Char} (hc : c ≠ '*') (rest : List Char) :
    boldSub op cl ('*' :: c :: rest) = '*' :: boldSub op cl (c :: rest) := by
  show boldSubF op cl (rest.length + 1 + 1) ('*' :: c :: rest) =
    '*' :: boldSubF op cl (rest.length + 1) (c :: rest)
  rw [boldSubF_star op cl hc]

theorem boldSub_star_one (op cl : List Char) : boldSub op cl ['*'] = ['*'] := rfl

theorem boldSub_bb_some (op cl : List Char) {rest cap rest2 : List Char}
    (h : findCloseBB rest = some (cap, rest2)) :
    boldSub op cl ('*' :: '*' :: rest) = op ++ cap ++ cl ++ boldSub op cl rest2 := by
  show boldSubF op cl (rest.length + 1 + 1) ('*' :: '*' :: rest) = _
  rw [boldSubF_bb_some op cl h]
  have := findCloseBB_len rest cap rest2 h
  rw [boldSubF_congr op cl (rest.length + 1) rest2.length rest2 (by omega) (by omega)]
  rfl

theorem boldSub_bb_none (op cl : List Char) {rest : List Char}
    (h : findCloseBB rest = none) :
    boldSub op cl ('*' :: '*' :: rest) = '*' :: boldSub op cl ('*' :: rest) := by
  show boldSubF op cl (rest.length + 1 + 1) ('*' :: '*' :: rest) = _
  rw [boldSubF_bb_none op cl h]
  rfl

theorem findCloseItH_nil : findCloseItH [] = none := rfl

theorem findCloseItH_star_star (rest : List Char) :
    findCloseItH ('*' :: '*' :: rest) =
      (findCloseItH ('*' :: rest)).map (fun pr => ('*' :: pr.1, pr.2)) := rfl

theorem findCloseItH_star_one : findCloseItH ['*'] = some ([], []) := rfl

theorem findCloseItH_star_ne {c : Char} (hc : c ≠ '*') (rest : List Char) :
    findCloseItH ('*' :: c :: rest) = some ([], c :: rest) := by
  rw [findCloseItH.eq_def]
  split
  · rename_i heq
    exact absurd heq (by simp)
  · rename_i r2 heq
    injection heq with h1 h2
    injection h2 with h1 h2
    exact absurd h1 hc
  · rename_i r2 hne heq
    injection heq with h1 h2
    subst h2
    rfl
  · rename_i heq
    injection heq with h1 h2
    exact absurd h1 (by decide)
  · rename_i c2 r2 hss hstar hnl heq
    injection heq with h1 h2
    exact absurd h1.symm hstar

theorem findCloseItH_cons_ne {c : Char} (hn : c ≠ '\n') (hc : c ≠ '*') (rest : List Char) :
    findCloseItH (c :: rest) = (findCloseItH rest).map (fun pr => (c :: pr.1, pr.2)) := by
  rw [findCloseItH.eq_def]
  split
  · rename_i heq
    exact absurd heq (by simp)
  · rename_i r2 heq
    injection heq with h1 h2
    exact absurd h1 hc
  · rename_i r2 hne heq
    injection heq with h1 h2
    exact absurd h1 hc
  · rename_i heq
    injection heq with h1 h2
    exact absurd h1 hn
  · rename_i c2 r2 hss hstar hnl heq
    injection heq with h1 h2
    subst h1
    subst h2
    rfl

theorem findCloseItH_len :
    ∀ l cap rest2, findCloseItH l = some (cap, rest2) →
      l.length = cap.length + rest2.length + 1 := by
  intro l
  induction l with
  | nil => intro cap r2 h; simp [findCloseItH_nil] at h
  | cons c rest ih =>
    intro cap r2 h
    by_cases hc : c = '*'
    · subst hc
      cases rest with
      | nil =>
        rw [findCloseItH_star_one] at h
        injection h with h1
        injection h1 with h1 h2
        subst h1; subst h2
        rfl
      | cons c2 r =>
        by_cases hc2 : c2 = '*'
        · subst hc2
          rw [findCloseItH_star_star] at h
          rw [Option.map_eq_some'] at h
          obtain ⟨pr, hpr, heq⟩ := h
          have hl := ih pr.1 pr.2 (by rw [hpr])
          injection heq with h1 h2
          subst h1; subst h2
          simp at hl ⊢
          omega
        · rw [findCloseItH_star_ne hc2] at h
          injection h with h1
          injection h1 with h1 h2
          subst h1; subst h2
          simp
    · by_cases hn : c = '\n'
      · subst hn; simp [findCloseItH] at h
      · rw [findCloseItH_cons_ne hn hc] at h
        rw [Option.map_eq_some'] at h
        obtain ⟨pr, hpr, heq⟩ := h
        have hl := ih pr.1 pr.2 (by rw [hpr])
        injection heq with h1 h2
        subst h1; subst h2
        simp at hl ⊢
        omega

theorem italicHF_nil (op cl : List Char) : ∀ f b, italicHF op cl f b [] = [] := by
  intro f b; cases f <;> rfl

theorem italicHF_star_prev (op cl : List Char) (f : Nat) (rest : List Char) :
    italicHF op cl (f + 1) true ('*' :: rest) = '*' :: italicHF op cl f true rest := rfl

theorem italicHF_star_some (op cl : List Char) {rest cap rest2 : List Char} {f : Nat}
    (h : findCloseItH rest = some (cap, rest2)) :
    italicHF op cl (f + 1) false ('*' :: rest) =
      op ++ cap ++ cl ++ italicHF op cl f true rest2 := by
  simp only [italicHF, h, Bool.false_eq_true, if_false]

theorem italicHF_star_none (op cl : List Char) {rest : List Char} {f : Nat}
    (h : findCloseItH rest = none) :
    italicHF op cl (f + 1) false ('*' :: rest) = '*' :: italicHF op cl f true rest := by
  simp only [italicHF, h, Bool.false_eq_true, if_false]

theorem italicHF_cons (op cl : List Char) {c : Char} (hc : c ≠ '*') (f : Nat) (b : Bool)
    (rest : List Char) :
    italicHF op cl (f + 1) b (c :: rest) = c :: italicHF op cl f false rest := by
  rw [italicHF.eq_def]
  split
  · rename_i heq
    omega
  · rename_i heq1 heq
    exact absurd heq (by simp)
  · rename_i f2 r2 heq1 heq
    injection heq with h1 h2
    exact absurd h1 hc
  · rename_i f2 c2 r2 hne heq1 heq
    injection heq with h1 h2
    subst h1
    subst h2
    obtain rfl : f2 = f := by omega
    rfl

theorem italicHF_congr (op cl : List Char) :
    ∀ f g b l, l.length ≤ f → l.length ≤ g →
      italicHF op cl f b l = italicHF op cl g b l := by
  intro f
  induction f with
  | zero =>
    intro g b l hf _
    have hl : l = [] := List.length_eq_zero.mp (Nat.le_zero.mp hf)
    subst hl
    rw [italicHF_nil, italicHF_nil]
  | succ f ih =>
    intro g b l hf hg
    cases l with
    | nil => rw [italicHF_nil, italicHF_nil]
    | cons c rest =>
      cases g with
      | zero => simp at hg
      | succ g =>
        by_cases hc : c = '*'
        · subst hc
          cases b with
          | true =>
            rw [italicHF_star_prev, italicHF_star_prev]
            have h1 : rest.length ≤ f := by simp at hf; omega
            have h2 : rest.length ≤ g := by simp at hg; omega
            rw [ih g true rest h1 h2]
          | false =>
            cases hfc : findCloseItH rest with
            | none =>
              rw [italicHF_star_none op cl hfc, italicHF_star_none op cl hfc]
              have h1 : rest.length ≤ f := by simp at hf; omega
              have h2 : rest.length ≤ g := by simp at hg; omega
              rw [ih g true rest h1 h2]
            | some pr =>
              obtain ⟨cap, rest2⟩ := pr
              rw [italicHF_star_some op cl hfc, italicHF_star_some op cl hfc]
              have hlen := findCloseItH_len rest cap rest2 hfc
              have h1 : rest2.length ≤ f := by simp at hf; omega
              have h2 : rest2.length ≤ g := by simp at hg; omega
              rw [ih g true rest2 h1 h2]
        · rw [italicHF_cons op cl hc, italicHF_cons op cl hc]
          have h1 : rest.length ≤ f := by simp at hf; omega
          have h2 : rest.length ≤ g := by simp at hg; omega
          rw [ih g false rest h1 h2]

/-- The display italic scanner at an arbitrary lookbehind state, with fuel
pinned to the input length (`italicSubH` is this at `false`). -/
def italicAuxH (op cl : List Char) (b : Bool) (l : List Char) : List Char :=
  italicHF op cl l.length b l

theorem italicSubH_eq_aux (op cl l : List Char) : italicSubH op cl l = italicAuxH op cl false l := rfl

theorem italicAuxH_nil (op cl : List Char) (b : Bool) : italicAuxH op cl b [] = [] := rfl

theorem italicAuxH_cons (op cl : List Char) {c : Char} (hc : c ≠ '*') (b : Bool)
    (rest : List Char) :
    italicAuxH op cl b (c :: rest) = c :: italicAuxH op cl false rest := by
  show italicHF op cl (rest.length + 1) b (c :: rest) = c :: italicHF op cl rest.length false rest
  rw [italicHF_cons op cl hc]

theorem italicAuxH_star_prev (op cl : List Char) (rest : List Char) :
    italicAuxH op cl true ('*' :: rest) = '*' :: italicAuxH op cl true rest := rfl

theorem italicAuxH_star_some (op cl : List Char) {rest cap rest2 : List Char}
    (h : findCloseItH rest = some (cap, rest2)) :
    italicAuxH op cl false ('*' :: rest) = op ++ cap ++ cl ++ italicAuxH op cl true rest2 := by
  show italicHF op cl (rest.length + 1) false ('*' :: rest) = _
  rw [italicHF_star_some op cl h]
  have := findCloseItH_len rest cap rest2 h
  rw [italicHF_congr op cl rest.length rest2.length true rest2 (by omega) (by omega)]
  rfl

theorem italicAuxH_star_none (op cl : List Char) {rest : List Char}
    (h : findCloseItH rest = none) :
    italicAuxH op cl false ('*' :: rest) = '*' :: italicAuxH op cl true rest := by
  show italicHF op cl (rest.length + 1) false ('*' :: rest) = _
  rw [italicHF_star_none op cl h]
  rfl

theorem findCloseItP_nil : findCloseItP [] = none := rfl

theorem findCloseItP_star (rest : List Char) : findCloseItP ('*' :: rest) = none := by
  rw [findCloseItP.eq_def]
  split
  · rfl
  · rfl
  · rfl
  · rename_i c2 r2 hs hss heq
    injection heq with h1 h2
    exact absurd h1.symm hs
  · rename_i c2 r2 hs hss hsr heq
    injection heq with h1 h2
    exact absurd h1.symm hs

theorem findCloseItP_len :
    ∀ l cap rest2, findCloseItP l = some (cap, rest2) →
      l.length = cap.length + rest2.length + 1 := by
  intro l
  induction l with
  | nil => intro cap r2 h; simp [findCloseItP_nil] at h
  | cons c rest ih =>
    intro cap r2 h
    rw [findCloseItP.eq_def] at h
    split at h
    · exact absurd h (by simp)
    · exact absurd h (by simp)
    · exact absurd h (by simp)
    · rename_i c2 r3 hs hss heq
      injection h with h3
      injection h3 with h3 h4
      subst h3; subst h4
      injection heq with h1 h2
      subst h2
      simp
      omega
    · rename_i c2 r3 hs hss hsr heq
      injection heq with h1 h2
      subst h2
      rw [Option.map_eq_some'] at h
      obtain ⟨pr, hpr, heq2⟩ := h
      have hl := ih pr.1 pr.2 (by rw [hpr])
      injection heq2 with h1 h2
      subst h1; subst h2
      simp at hl ⊢
      omega

theorem italicPF_nil (op cl : List Char) : ∀ f b, italicPF op cl f b [] = [] := by
  intro f b; cases f <;> rfl

theorem italicPF_star_prev (op cl : List Char) (f : Nat) (rest : List Char) :
    italicPF op cl (f + 1) true ('*' :: rest) = '*' :: italicPF op cl f true rest := rfl

theorem italicPF_star_some (op cl : List Char) {rest cap rest2 : List Char} {f : Nat}
    (h : findCloseItP rest = some (cap, rest2)) :
    italicPF op cl (f + 1) false ('*' :: rest) =
      op ++ cap ++ cl ++ italicPF op cl f true rest2 := by
  simp only [italicPF, h, Bool.false_eq_true, if_false]

theorem italicPF_star_none (op cl : List Char) {rest : List Char} {f : Nat}
    (h : findCloseItP rest = none) :
    italicPF op cl (f + 1) false ('*' :: rest) = '*' :: italicPF op cl f true rest := by
  simp only [italicPF, h, Bool.false_eq_true, if_false]

theorem italicPF_cons (op cl : List Char) {c : Char} (hc : c ≠ '*') (f : Nat) (b : Bool)
    (rest : List Char) :
    italicPF op cl (f + 1) b (c :: rest) = c :: italicPF op cl f false rest := by
  rw [italicPF.eq_def]
  split
  · rename_i heq
    omega
  · rename_i heq1 heq
    exact absurd heq (by simp)
  · rename_i f2 r2 heq1 heq
    injection heq with h1 h2
    exact absurd h1 hc
  · rename_i f2 c2 r2 hne heq1 heq
    injection heq with h1 h2
    subst h1
    subst h2
    obtain rfl : f2 = f := by omega
    rfl

theorem italicPF_congr (op cl : List Char) :
    ∀ f g b l, l.length ≤ f → l.length ≤ g →
      italicPF op cl f b l = italicPF op cl g b l := by
  intro f
  induction f with
  | zero =>
    intro g b l hf _
    have hl : l = [] := List.length_eq_zero.mp (Nat.le_zero.mp hf)
    subst hl
    rw [italicPF_nil, italicPF_nil]
  | succ f ih =>
    intro g b l hf hg
    cases l with
    | nil => rw [italicPF_nil, italicPF_nil]
    | cons c rest =>
      cases g with
      | zero => simp at hg
      | succ g =>
        by_cases hc : c = '*'
        · subst hc
          cases b with
          | true =>
            rw [italicPF_star_prev, italicPF_star_prev]
            have h1 : rest.length ≤ f := by simp at hf; omega
            have h2 : rest.length ≤ g := by simp at hg; omega
            rw [ih g true rest h1 h2]
          | false =>
            cases hfc : findCloseItP rest with
            | none =>
              rw [italicPF_star_none op cl hfc, italicPF_star_none op cl hfc]
              have h1 : rest.length ≤ f := by simp at hf; omega
              have h2 : rest.length ≤ g := by simp at hg; omega
              rw [ih g true rest h1 h2]
            | some pr =>
              obtain ⟨cap, rest2⟩ := pr
              rw [italicPF_star_some op cl hfc, italicPF_star_some op cl hfc]
              have hlen := findCloseItP_len rest cap rest2 hfc
              have h1 : rest2.length ≤ f := by simp at hf; omega
              have h2 : rest2.length ≤ g := by simp at hg; omega
              rw [ih g true rest2 h1 h2]
        · rw [italicPF_cons op cl hc, italicPF_cons op cl hc]
          have h1 : rest.length ≤ f := by simp at hf; omega
          have h2 : rest.length ≤ g := by simp at hg; omega
          rw [ih g false rest h1 h2]

/-- The document italic scanner at an arbitrary lookbehind state, with fuel
pinned to the input length (`italicSubP` is this at `false`). -/
def italicAuxP (op cl : List Char) (b : Bool) (l : List Char) : List Char :=
  italicPF op cl l.length b l

theorem italicSubP_eq_aux (op cl l : List Char) : italicSubP op cl l = italicAuxP op cl false l := rfl

theorem italicAuxP_nil (op cl : List Char) (b : Bool) : italicAuxP op cl b [] = [] := rfl

theorem italicAuxP_cons (op cl : List Char) {c : Char} (hc : c ≠ '*') (b : Bool)
    (rest : List Char) :
    italicAuxP op cl b (c :: rest) = c :: italicAuxP op cl false rest := by
  show italicPF op cl (rest.length + 1) b (c :: rest) = c :: italicPF op cl rest.length false rest
  rw [italicPF_cons op cl hc]

theorem italicAuxP_star_prev (op cl : List Char) (rest : List Char) :
    italicAuxP op cl true ('*' :: rest) = '*' :: italicAuxP op cl true rest := rfl

theorem italicAuxP_star_some (op cl : List Char) {rest cap rest2 : List Char}
    (h : findCloseItP rest = some (cap, rest2)) :
    italicAuxP op cl false ('*' :: rest) = op ++ cap ++ cl ++ italicAuxP op cl true rest2 := by
  show italicPF op cl (rest.length + 1) false ('*' :: rest) = _
  rw [italicPF_star_some op cl h]
  have := findCloseItP_len rest cap rest2 h
  rw [italicPF_congr op cl rest.length rest2.length true rest2 (by omega) (by omega)]
  rfl

theorem italicAuxP_star_none (op cl : List Char) {rest : List Char}
    (h : findCloseItP rest = none) :
    italicAuxP op cl false ('*' :: rest) = '*' :: italicAuxP op cl true rest := by
  show italicPF op cl (rest.length + 1) false ('*' :: rest) = _
  rw [italicPF_star_none op cl h]
  rfl

theorem urlRun_len :
    ∀ l run rest2, urlRun l = (run, rest2) → run.length + rest2.length = l.length := by
  intro l
  induction l with
  | nil =>
    intro run r2 h
    simp [urlRun] at h
    obtain ⟨h1, h2⟩ := h
    subst h1; subst h2
    rfl
  | cons c rest ih =>
    intro run r2 h
    by_cases hs : isUrlStop c
    · simp [urlRun, hs] at h
      obtain ⟨h1, h2⟩ := h
      subst h1; subst h2
      simp
    · cases hrun : urlRun rest with
      | mk rn rr =>
        simp [urlRun, hs, hrun] at h
        obtain ⟨h1, h2⟩ := h
        subst h1; subst h2
        have := ih rn rr hrun
        simp
        omega

theorem mem_of_isPrefixOf {x : Char} (s l : List Char) (h : s.isPrefixOf l = true)
    (hx : x ∈ s) : x ∈ l := by
  have h2 : s <+: l := by simpa using h
  obtain ⟨t, rfl⟩ := h2
  exact List.mem_append_left t hx

theorem urlSubF_nil (mk : List Char → List Char) : ∀ f, urlSubF mk f [] = [] := by
  intro f; cases f <;> rfl

theorem urlSubF_cons_eq (mk : List Char → List Char) (f : Nat) (c : Char) (rest : List Char) :
    urlSubF mk (f + 1) (c :: rest) =
      if httpsScheme.isPrefixOf (c :: rest) then
        match urlRun ((c :: rest).drop 8) with
        | ([], _) => httpsScheme ++ urlSubF mk f ((c :: rest).drop 8)
        | (run, rest2) => mk (httpsScheme ++ run) ++ urlSubF mk f rest2
      else if httpScheme.isPrefixOf (c :: rest) then
        match urlRun ((c :: rest).drop 7) with
        | ([], _) => httpScheme ++ urlSubF mk f ((c :: rest).drop 7)
        | (run, rest2) => mk (httpScheme ++ run) ++ urlSubF mk f rest2
      else c :: urlSubF mk f rest := rfl

theorem not_isPrefixOf_https {c : Char} (hc : c ≠ 'h') (rest : List Char) :
    httpsScheme.isPrefixOf (c :: rest) = false := by
  simp [httpsScheme, List.isPrefixOf]
  intro h
  exact absurd h.symm hc

theorem not_isPrefixOf_http {c : Char} (hc : c ≠ 'h') (rest : List Char) :
    httpScheme.isPrefixOf (c :: rest) = false := by
  simp [httpScheme, List.isPrefixOf]
  intro h
  exact absurd h.symm hc

theorem urlSubF_cons (mk : List Char → List Char) {c : Char} (hc : c ≠ 'h') (f : Nat)
    (rest : List Char) :
    urlSubF mk (f + 1) (c :: rest) = c :: urlSubF mk f rest := by
  rw [urlSubF_cons_eq, not_isPrefixOf_https hc, not_isPrefixOf_http hc]
  simp

theorem urlSubF_congr (mk : List Char → List Char) :
    ∀ f g l, l.length ≤ f → l.length ≤ g → urlSubF mk f l = urlSubF mk g l := by
  intro f
  induction f with
  | zero =>
    intro g l hf _
    have hl : l = [] := List.length_eq_zero.mp (Nat.le_zero.mp hf)
    subst hl
    rw [urlSubF_nil, urlSubF_nil]
  | succ f ih =>
    intro g l hf hg
    cases l with
    | nil => rw [urlSubF_nil, urlSubF_nil]
    | cons c rest =>
      cases g with
      | zero => simp at hg
      | succ g =>
        rw [urlSubF_cons_eq, urlSubF_cons_eq]
        by_cases hps : httpsScheme.isPrefixOf (c :: rest)
        · rw [if_pos hps, if_pos hps]
          cases hrun : urlRun ((c :: rest).drop 8) with
          | mk rn rr =>
            have hrl := urlRun_len _ rn rr hrun
            have hdl : ((c :: rest).drop 8).length ≤ rest.length := by
              rw [List.length_drop]
              simp only [List.length_cons]
              omega
            cases rn with
            | nil =>
              simp only []
              have h1 : ((c :: rest).drop 8).length ≤ f := by simp at hf; omega
              have h2 : ((c :: rest).drop 8).length ≤ g := by simp at hg; omega
              rw [ih g ((c :: rest).drop 8) h1 h2]
            | cons a as =>
              simp only []
              have h1 : rr.length ≤ f := by simp at hf hrl ⊢; omega
              have h2 : rr.length ≤ g := by simp at hg hrl ⊢; omega
              rw [ih g rr h1 h2]
        · rw [if_neg hps, if_neg hps]
          by_cases hp : httpScheme.isPrefixOf (c :: rest)
          · rw [if_pos hp, if_pos hp]
            cases hrun : urlRun ((c :: rest).drop 7) with
            | mk rn rr =>
              have hrl := urlRun_len _ rn rr hrun
              have hdl : ((c :: rest).drop 7).length ≤ rest.length := by
                rw [List.length_drop]
                simp only [List.length_cons]
                omega
              cases rn with
              | nil =>
                simp only []
                have h1 : ((c :: rest).drop 7).length ≤ f := by simp at hf; omega
                have h2 : ((c :: rest).drop 7).length ≤ g := by simp at hg; omega
                rw [ih g ((c :: rest).drop 7) h1 h2]
              | cons a as =>
                simp only []
                have h1 : rr.length ≤ f := by simp at hf hrl ⊢; omega
                have h2 : rr.length ≤ g := by simp at hg hrl ⊢; omega
                rw [ih g rr h1 h2]
          · rw [if_neg hp, if_neg hp]
            have h1 : rest.length ≤ f := by simp at hf; omega
            have h2 : rest.length ≤ g := by simp at hg; omega
            rw [ih g rest h1 h2]

theorem urlSub_nil (mk : List Char → List Char) : urlSub mk [] = [] := rfl

theorem urlSub_cons (mk : List Char → List Char) {c : Char} (hc : c ≠ 'h') (rest : List Char) :
    urlSub mk (c :: rest) = c :: urlSub mk rest := by
  show urlSubF mk (rest.length + 1) (c :: rest) = c :: urlSubF mk rest.length rest
  rw [urlSubF_cons mk hc]

theorem urlSubF_no_colon (mk : List Char → List Char) :
    ∀ f l, ':' ∉ l → urlSubF mk f l = l := by
  intro f
  induction f with
  | zero => intro l _; rfl
  | succ f ih =>
    intro l hl
    cases l with
    | nil => rfl
    | cons c rest =>
      have hps : httpsScheme.isPrefixOf (c :: rest) = false := by
        by_contra h
        have h' : httpsScheme.isPrefixOf (c :: rest) = true := by
          cases hb : httpsScheme.isPrefixOf (c :: rest)
          · exact absurd hb h
          · rfl
        exact hl (mem_of_isPrefixOf httpsScheme (c :: rest) h' (by decide))
      have hp : httpScheme.isPrefixOf (c :: rest) = false := by
        by_contra h
        have h' : httpScheme.isPrefixOf (c :: rest) = true := by
          cases hb : httpScheme.isPrefixOf (c :: rest)
          · exact absurd hb h
          · rfl
        exact hl (mem_of_isPrefixOf httpScheme (c :: rest) h' (by decide))
      rw [urlSubF_cons_eq, hps, hp]
      simp only [Bool.false_eq_true, if_false]
      rw [ih rest (fun hm => hl (List.mem_cons_of_mem _ hm))]

theorem urlSub_no_colon (mk : List Char → List Char) {l : List Char} (h : ':' ∉ l) :
    urlSub mk l = l := urlSubF_no_colon mk l.length l h

/-! ### Generic helper lemmas -/

theorem boldSub_no_star (op cl : List Char) : ∀ l, '*' ∉ l → boldSub op cl l = l := by
  intro l
  induction l with
  | nil => intro _; rfl
  | cons c rest ih =>
    intro h
    have hc : c ≠ '*' := fun hh => h (hh ▸ List.mem_cons_self _ _)
    rw [boldSub_cons op cl hc, ih (fun hm => h (List.mem_cons_of_mem _ hm))]

theorem italicAuxH_no_star (op cl : List Char) : ∀ l, '*' ∉ l → ∀ b, italicAuxH op cl b l = l := by
  intro l
  induction l with
  | nil => intro _ b; rfl
  | cons c rest ih =>
    intro h b
    have hc : c ≠ '*' := fun hh => h (hh ▸ List.mem_cons_self _ _)
    rw [italicAuxH_cons op cl hc, ih (fun hm => h (List.mem_cons_of_mem _ hm))]

theorem italicAuxP_no_star (op cl : List Char) : ∀ l, '*' ∉ l → ∀ b, italicAuxP op cl b l = l := by
  intro l
  induction l with
  | nil => intro _ b; rfl
  | cons c rest ih =>
    intro h b
    have hc : c ≠ '*' := fun hh => h (hh ▸ List.mem_cons_self _ _)
    rw [italicAuxP_cons op cl hc, ih (fun hm => h (List.mem_cons_of_mem _ hm))]

theorem boldSub_ne_nil (op cl : List Char) (hop : op ≠ []) :
    ∀ l, l ≠ [] → boldSub op cl l ≠ [] := by
  intro l hl
  cases l with
  | nil => exact absurd rfl hl
  | cons c rest =>
    by_cases hc : c = '*'
    · subst hc
      cases rest with
      | nil => rw [boldSub_star_one]; simp
      | cons c2 r =>
        by_cases hc2 : c2 = '*'
        · subst hc2
          cases hfc : findCloseBB r with
          | none => rw [boldSub_bb_none op cl hfc]; simp
          | some pr =>
            obtain ⟨cap, r2⟩ := pr
            rw [boldSub_bb_some op cl hfc]
            simp [List.append_eq_nil, hop]
        · rw [boldSub_star_cons op cl hc2]; simp
    · rw [boldSub_cons op cl hc]; simp

theorem italicAuxP_ne_nil (op cl : List Char) (hop : op ≠ []) :
    ∀ b l, l ≠ [] → italicAuxP op cl b l ≠ [] := by
  intro b l hl
  cases l with
  | nil => exact absurd rfl hl
  | cons c rest =>
    by_cases hc : c = '*'
    · subst hc
      cases b with
      | true => rw [italicAuxP_star_prev]; simp
      | false =>
        cases hfc : findCloseItP rest with
        | none => rw [italicAuxP_star_none op cl hfc]; simp
        | some pr =>
          obtain ⟨cap, r2⟩ := pr
          rw [italicAuxP_star_some op cl hfc]
          simp [List.append_eq_nil, hop]
    · rw [italicAuxP_cons op cl hc]; simp

theorem urlSub_ne_nil (mk : List Char → List Char) (hmk : ∀ u, mk u ≠ []) :
    ∀ l, l ≠ [] → urlSub mk l ≠ [] := by
  intro l hl
  cases l with
  | nil => exact absurd rfl hl
  | cons c rest =>
    show urlSubF mk (rest.length + 1) (c :: rest) ≠ []
    rw [urlSubF_cons_eq]
    by_cases hps : httpsScheme.isPrefixOf (c :: rest)
    · rw [if_pos hps]
      cases hrun : urlRun ((c :: rest).drop 8) with
      | mk rn rr =>
        cases rn with
        | nil => simp [httpsScheme]
        | cons a as => simp [List.append_eq_nil, hmk]
    · rw [if_neg hps]
      by_cases hp : httpScheme.isPrefixOf (c :: rest)
      · rw [if_pos hp]
        cases hrun : urlRun ((c :: rest).drop 7) with
        | mk rn rr =>
          cases rn with
          | nil => simp [httpScheme]
          | cons a as => simp [List.append_eq_nil, hmk]
      · rw [if_neg hp]
        simp

theorem dropWhileLengthLe (p : Char → Bool) :
    ∀ l : List Char, (l.dropWhile p).length ≤ l.length := by
  intro l
  induction l with
  | nil => simp
  | cons c rest ih =>
    rw [List.dropWhile_cons]
    by_cases hc : p c = true
    · rw [if_pos hc]
      simp
      omega
    · rw [if_neg hc]

theorem dropWhile_all_false (p : Char → Bool) :
    ∀ l : List Char, (∀ c ∈ l, p c = false) → l.dropWhile p = l := by
  intro l h
  cases l with
  | nil => rfl
  | cons c rest =>
    rw [List.dropWhile_cons, h c (List.mem_cons_self _ _)]
    simp

theorem pyStripL_all_nonspace (l : List Char) (h : ∀ c ∈ l, pySpace c = false) :
    pyStripL l = l := by
  unfold pyStripL
  rw [dropWhile_all_false pySpace l h]
  rw [dropWhile_all_false pySpace l.reverse (fun c hc => h c (List.mem_reverse.mp hc))]
  exact List.reverse_reverse l

theorem head_false_of_dropWhile_eq_self (p : Char → Bool) (c : Char) (t : List Char)
    (h : (c :: t).dropWhile p = c :: t) : p c = false := by
  cases hc : p c with
  | false => rfl
  | true =>
    rw [List.dropWhile_cons, hc] at h
    simp at h
    have := dropWhileLengthLe p t
    rw [h] at this
    simp at this

theorem dropWhile_append_self (p : Char → Bool) (l s : List Char)
    (h : l.dropWhile p = l) (hne : l ≠ []) : (l ++ s).dropWhile p = l ++ s := by
  cases l with
  | nil => exact absurd rfl hne
  | cons c t =>
    have hc := head_false_of_dropWhile_eq_self p c t h
    rw [List.cons_append, List.dropWhile_cons, hc]
    simp

theorem dropWhile_eq_self_of_length (p : Char → Bool) :
    ∀ l : List Char, (l.dropWhile p).length = l.length → l.dropWhile p = l := by
  intro l h
  cases l with
  | nil => rfl
  | cons c rest =>
    cases hc : p c with
    | false => rw [List.dropWhile_cons, hc]; simp
    | true =>
      rw [List.dropWhile_cons, hc] at h ⊢
      simp at h
      have := dropWhileLengthLe p rest
      omega

theorem pyStripL_parts {r : List Char} (h : pyStripL r = r) :
    r.dropWhile pySpace = r ∧ r.reverse.dropWhile pySpace = r.reverse := by
  have h1 : r.dropWhile pySpace = r := by
    apply dropWhile_eq_self_of_length
    have e1 : (pyStripL r).length ≤ (r.dropWhile pySpace).length := by
      unfold pyStripL
      rw [List.length_reverse]
      calc ((r.dropWhile pySpace).reverse.dropWhile pySpace).length
          ≤ (r.dropWhile pySpace).reverse.length := dropWhileLengthLe _ _
        _ = (r.dropWhile pySpace).length := List.length_reverse _
    rw [h] at e1
    have e2 := dropWhileLengthLe pySpace r
    omega
  refine ⟨h1, ?_⟩
  unfold pyStripL at h
  rw [h1] at h
  have := congrArg List.reverse h
  rw [List.reverse_reverse] at this
  exact this

theorem pyStripL_dash_space {r : List Char} (h : pyStripL r = r) (hne : r ≠ []) :
    pyStripL ('-' :: ' ' :: r) = '-' :: ' ' :: r := by
  obtain ⟨h1, h2⟩ := pyStripL_parts h
  unfold pyStripL
  have hd : ('-' :: ' ' :: r).dropWhile pySpace = '-' :: ' ' :: r := by
    rw [List.dropWhile_cons]
    simp [pySpace]
  rw [hd]
  have hrev : ('-' :: ' ' :: r).reverse = r.reverse ++ [' ', '-'] := by
    simp
  rw [hrev]
  have hrne : r.reverse ≠ [] := by
    intro hh
    exact hne (by simpa using congrArg List.reverse hh)
  rw [dropWhile_append_self pySpace r.reverse [' ', '-'] h2 hrne]
  rw [List.reverse_append, List.reverse_reverse]
  rfl

theorem splitLines_nil : splitLines [] = [[]] := rfl

theorem splitLines_nl (rest : List Char) : splitLines ('\n' :: rest) = [] :: splitLines rest := rfl

theorem splitLines_cons_ne {c : Char} (hc : c ≠ '\n') (l : List Char) :
    splitLines (c :: l) =
      match splitLines l with
      | [] => [[c]]
      | x :: xs => (c :: x) :: xs := by
  rw [splitLines.eq_def]
  split
  · rename_i heq
    exact absurd heq (by simp)
  · rename_i r2 heq
    injection heq with h1 h2
    exact absurd h1 hc
  · rename_i c2 r2 hne heq
    injection heq with h1 h2
    subst h1
    subst h2
    rfl

theorem splitLines_no_nl : ∀ l : List Char, '\n' ∉ l → splitLines l = [l] := by
  intro l
  induction l with
  | nil => intro _; rfl
  | cons c rest ih =>
    intro h
    have hc : c ≠ '\n' := fun hh => h (hh ▸ List.mem_cons_self _ _)
    rw [splitLines_cons_ne hc, ih (fun hm => h (List.mem_cons_of_mem _ hm))]

theorem splitLines_append_cons :
    ∀ x : List Char, '\n' ∉ x → ∀ rest : List Char,
      splitLines (x ++ '\n' :: rest) = x :: splitLines rest := by
  intro x
  induction x with
  | nil => intro _ rest; rfl
  | cons c t ih =>
    intro h rest
    have hc : c ≠ '\n' := fun hh => h (hh ▸ List.mem_cons_self _ _)
    rw [List.cons_append, splitLines_cons_ne hc, ih (fun hm => h (List.mem_cons_of_mem _ hm))]

theorem splitLines_joinNL :
    ∀ xs : List (List Char), xs ≠ [] → (∀ x ∈ xs, '\n' ∉ x) →
      splitLines (joinNL xs) = xs := by
  intro xs
  induction xs with
  | nil => intro h _; exact absurd rfl h
  | cons x ys ih =>
    intro _ h
    cases ys with
    | nil => exact splitLines_no_nl x (h x (List.mem_cons_self _ _))
    | cons y zs =>
      show splitLines (x ++ '\n' :: joinNL (y :: zs)) = x :: (y :: zs)
      rw [splitLines_append_cons x (h x (List.mem_cons_self _ _))]
      rw [ih (by simp) (fun z hz => h z (List.mem_cons_of_mem _ hz))]

theorem filterMap_all_some {α β : Type} (f : α → Option β) (g : α → β) :
    ∀ l : List α, (∀ x ∈ l, f x = some (g x)) → l.filterMap f = l.map g := by
  intro l
  induction l with
  | nil => intro _; rfl
  | cons x rest ih =>
    intro h
    rw [List.filterMap_cons, h x (List.mem_cons_self _ _), List.map_cons]
    rw [ih (fun z hz => h z (List.mem_cons_of_mem _ hz))]

/-! ### Lemmas for the list-grouping post-pass -/

theorem attrSplit_gt (rest : List Char) : attrSplit ('>' :: rest) = some ([], rest) := rfl

theorem attrSplit_cons_ne {c : Char} (hc : c ≠ '>') (rest : List Char) :
    attrSplit (c :: rest) = (attrSplit rest).map (fun pr => (c :: pr.1, pr.2)) := by
  rw [attrSplit.eq_def]
  split
  · rename_i heq
    exact absurd heq (by simp)
  · rename_i r2 heq
    injection heq with h1 h2
    exact absurd h1 hc
  · rename_i c2 r2 hne heq
    injection heq with h1 h2
    subst h1
    subst h2
    rfl

theorem attrSplit_append : ∀ a : List Char, '>' ∉ a → ∀ z : List Char,
    attrSplit (a ++ '>' :: z) = some (a, z) := by
  intro a
  induction a with
  | nil => intro _ z; rfl
  | cons c t ih =>
    intro h z
    have hc : c ≠ '>' := fun hh => h (hh ▸ List.mem_cons_self _ _)
    rw [List.cons_append, attrSplit_cons_ne hc, ih (fun hm => h (List.mem_cons_of_mem _ hm)) z]
    rfl

theorem attrSplit_len :
    ∀ l a r, attrSplit l = some (a, r) → l.length = a.length + r.length + 1 := by
  intro l
  induction l with
  | nil => intro a r h; simp [attrSplit] at h
  | cons c rest ih =>
    intro a r h
    by_cases hc : c = '>'
    · subst hc
      rw [attrSplit_gt] at h
      injection h with h1
      injection h1 with h1 h2
      subst h1; subst h2
      simp
    · rw [attrSplit_cons_ne hc] at h
      rw [Option.map_eq_some'] at h
      obtain ⟨pr, hpr, heq⟩ := h
      have hl := ih pr.1 pr.2 (by rw [hpr])
      injection heq with h1 h2
      subst h1; subst h2
      simp at hl ⊢
      omega

theorem splitLiClose_close (rest : List Char) :
    splitLiClose ('<' :: '/' :: 'l' :: 'i' :: '>' :: rest) = some ([], rest) := rfl

theorem splitLiClose_cons_ne {c : Char} (hc : c ≠ '<') (rest : List Char) :
    splitLiClose (c :: rest) = (splitLiClose rest).map (fun pr => (c :: pr.1, pr.2)) := by
  rw [splitLiClose.eq_def]
  split
  · rename_i r2 heq
    injection heq with h1 h2
    exact absurd h1 hc
  · rename_i heq
    exact absurd heq (by simp)
  · rename_i c2 r2 hne heq
    injection heq with h1 h2
    subst h1
    subst h2
    rfl

theorem splitLiClose_append : ∀ t : List Char, '<' ∉ t → ∀ z : List Char,
    splitLiClose (t ++ '<' :: '/' :: 'l' :: 'i' :: '>' :: z) = some (t, z) := by
  intro t
  induction t with
  | nil => intro _ z; rfl
  | cons c u ih =>
    intro h z
    have hc : c ≠ '<' := fun hh => h (hh ▸ List.mem_cons_self _ _)
    rw [List.cons_append, splitLiClose_cons_ne hc, ih (fun hm => h (List.mem_cons_of_mem _ hm)) z]
    rfl

theorem splitLiClose_len :
    ∀ l b r, splitLiClose l = some (b, r) → l.length = b.length + r.length + 5 := by
  intro l
  induction l with
  | nil => intro b r h; simp [splitLiClose] at h
  | cons c rest ih =>
    intro b r h
    rw [splitLiClose.eq_def] at h
    split at h
    · rename_i r2 heq
      injection h with h1
      injection h1 with h1 h2
      subst h1; subst h2
      injection heq with h1 h2
      subst h2
      simp
    · rename_i heq
      exact absurd heq (by simp)
    · rename_i c2 r2 hne heq
      injection heq with h1 h2
      subst h2
      rw [Option.map_eq_some'] at h
      obtain ⟨pr, hpr, heq2⟩ := h
      have hl := ih pr.1 pr.2 (by rw [hpr])
      injection heq2 with h1 h2
      subst h1; subst h2
      simp at hl ⊢
      omega

theorem splitLiClose_cons_lt_ne {rest : List Char}
    (hne : ∀ r, rest ≠ '/' :: 'l' :: 'i' :: '>' :: r) :
    splitLiClose ('<' :: rest) = (splitLiClose rest).map (fun pr => ('<' :: pr.1, pr.2)) := by
  rw [splitLiClose.eq_def]
  split
  · rename_i r2 heq
    injection heq with h1 h2
    exact absurd h2 (hne r2)
  · rename_i heq
    exact absurd heq (by simp)
  · rename_i c2 r2 hn heq
    injection heq with h1 h2
    subst h1
    subst h2
    rfl

theorem liCloseStartNe {rest : List Char}
    (hne : ∀ r, rest ≠ '/' :: 'l' :: 'i' :: '>' :: r) (z : List Char) :
    ∀ r, rest ++ '<' :: '/' :: 'l' :: 'i' :: '>' :: z ≠ '/' :: 'l' :: 'i' :: '>' :: r := by
  intro r hr
  cases rest with
  | nil =>
    injection hr with h1 h2
    exact absurd h1 (by decide)
  | cons a rest1 =>
    injection hr with h1 h2
    subst h1
    cases rest1 with
    | nil =>
      injection h2 with h1 h2
      exact absurd h1 (by decide)
    | cons b rest2 =>
      injection h2 with h1 h2
      subst h1
      cases rest2 with
      | nil =>
        injection h2 with h1 h2
        exact absurd h1 (by decide)
      | cons d rest3 =>
        injection h2 with h1 h2
        subst h1
        cases rest3 with
        | nil =>
          injection h2 with h1 h2
          exact absurd h1 (by decide)
        | cons e rest4 =>
          injection h2 with h1 h2
          subst h1
          exact hne rest4 rfl

theorem splitLiClose_append_none :
    ∀ body : List Char, splitLiClose body = none → ∀ z : List Char,
      splitLiClose (body ++ '<' :: '/' :: 'l' :: 'i' :: '>' :: z) = some (body, z) := by
  intro body
  induction body with
  | nil => intro _ z; exact splitLiClose_close z
  | cons c rest ih =>
    intro h z
    by_cases hc : c = '<'
    · subst hc
      have hrest : ∀ r, rest ≠ '/' :: 'l' :: 'i' :: '>' :: r := by
        intro r hr
        rw [hr, splitLiClose_close] at h
        exact absurd h (by simp)
      rw [splitLiClose_cons_lt_ne hrest] at h
      rw [Option.map_eq_none'] at h
      rw [List.cons_append, splitLiClose_cons_lt_ne (liCloseStartNe hrest z)]
      rw [ih h z]
      rfl
    · rw [splitLiClose_cons_ne hc] at h
      rw [Option.map_eq_none'] at h
      rw [List.cons_append, splitLiClose_cons_ne hc]
      rw [ih h z]
      rfl

theorem splitLiClose_none_of_no_lt : ∀ t : List Char, '<' ∉ t → splitLiClose t = none := by
  intro t
  induction t with
  | nil => intro _; rfl
  | cons c rest ih =>
    intro h
    have hc : c ≠ '<' := fun hh => h (hh ▸ List.mem_cons_self _ _)
    rw [splitLiClose_cons_ne hc, ih (fun hm => h (List.mem_cons_of_mem _ hm))]
    rfl

theorem matchLiUnit_li_some {rest attrs rest1 body rest2 : List Char}
    (h1 : attrSplit rest = some (attrs, rest1))
    (h2 : splitLiClose rest1 = some (body, rest2)) :
    matchLiUnit ('<' :: 'l' :: 'i' :: rest) =
      some ('<' :: 'l' :: 'i' :: attrs ++ '>' :: body ++ ("</li>").data, rest2) := by
  simp only [matchLiUnit, h1, h2]

theorem matchLiUnit_nil : matchLiUnit [] = none := rfl

theorem matchLiUnit_len :
    ∀ l m r, matchLiUnit l = some (m, r) → r.length + 9 ≤ l.length := by
  intro l m r h
  rw [matchLiUnit.eq_def] at h
  split at h
  · rename_i rest
    cases ha : attrSplit rest with
    | none =>
      simp only [ha] at h
      exact absurd h (by simp)
    | some pr1 =>
      obtain ⟨attrs, rest1⟩ := pr1
      simp only [ha] at h
      cases hs : splitLiClose rest1 with
      | none =>
        simp only [hs] at h
        exact absurd h (by simp)
      | some pr2 =>
        obtain ⟨body, rest2⟩ := pr2
        simp only [hs] at h
        injection h with h1
        injection h1 with h1 h2
        subst h2
        have l1 := attrSplit_len rest attrs rest1 ha
        have l2 := splitLiClose_len rest1 body rest2 hs
        simp
        omega
  · exact absurd h (by simp)

theorem wsSpan_nil : wsSpan [] = ([], []) := rfl

theorem wsSpan_cons_space {c : Char} (hc : pySpace c = true) (l : List Char) :
    wsSpan (c :: l) = (c :: (wsSpan l).1, (wsSpan l).2) := by
  cases hw : wsSpan l with
  | mk ws l1 => simp [wsSpan, hc, hw]

theorem wsSpan_cons_nospace {c : Char} (hc : pySpace c = false) (l : List Char) :
    wsSpan (c :: l) = ([], c :: l) := by
  simp [wsSpan, hc]

theorem wsSpan_len : ∀ l : List Char, (wsSpan l).2.length ≤ l.length := by
  intro l
  induction l with
  | nil => simp [wsSpan_nil]
  | cons c rest ih =>
    by_cases hc : pySpace c = true
    · rw [wsSpan_cons_space hc]
      simp
      omega
    · rw [wsSpan_cons_nospace (by simpa using hc)]

theorem liStarExtF_zero (l : List Char) : liStarExtF 0 l = ([], l) := rfl

theorem liStarExtF_none {l ws l1 : List Char} {f : Nat}
    (hw : wsSpan l = (ws, l1)) (hm : matchLiUnit l1 = none) :
    liStarExtF (f + 1) l = ([], l) := by
  simp only [liStarExtF, hw, hm]

theorem liStarExtF_some {l ws l1 m rest : List Char} {f : Nat}
    (hw : wsSpan l = (ws, l1)) (hm : matchLiUnit l1 = some (m, rest)) :
    liStarExtF (f + 1) l =
      (ws ++ m ++ (liStarExtF f rest).1, (liStarExtF f rest).2) := by
  cases hr : liStarExtF f rest with
  | mk m2 rest2 => simp only [liStarExtF, hw, hm, hr]

theorem liStarExtF_snd_len : ∀ f l, (liStarExtF f l).2.length ≤ l.length := by
  intro f
  induction f with
  | zero => intro l; rw [liStarExtF_zero]
  | succ f ih =>
    intro l
    cases hw : wsSpan l with
    | mk ws l1 =>
      cases hm : matchLiUnit l1 with
      | none => rw [liStarExtF_none hw hm]
      | some pr =>
        obtain ⟨m, rest⟩ := pr
        rw [liStarExtF_some hw hm]
        have h1 := ih rest
        have h2 := matchLiUnit_len l1 m rest hm
        have h3 := wsSpan_len l
        rw [hw] at h3
        simp at h3 ⊢
        omega

theorem liStarExtF_congr :
    ∀ f g l, l.length ≤ f → l.length ≤ g → liStarExtF f l = liStarExtF g l := by
  intro f
  induction f with
  | zero =>
    intro g l hf _
    have hl : l = [] := List.length_eq_zero.mp (Nat.le_zero.mp hf)
    subst hl
    cases g with
    | zero => rfl
    | succ g => rfl
  | succ f ih =>
    intro g l hf hg
    cases hw : wsSpan l with
    | mk ws l1 =>
      cases hm : matchLiUnit l1 with
      | none =>
        cases g with
        | zero =>
          have hl : l = [] := List.length_eq_zero.mp (Nat.le_zero.mp hg)
          subst hl
          rfl
        | succ g =>
          rw [liStarExtF_none hw hm, liStarExtF_none hw hm]
      | some pr =>
        obtain ⟨m, rest⟩ := pr
        cases g with
        | zero =>
          have hl : l = [] := List.length_eq_zero.mp (Nat.le_zero.mp hg)
          subst hl
          rw [wsSpan_nil] at hw
          injection hw with h1 h2
          subst h2
          rw [matchLiUnit_nil] at hm
          exact absurd hm (by simp)
        | succ g =>
          rw [liStarExtF_some hw hm, liStarExtF_some hw hm]
          have h2 := matchLiUnit_len l1 m rest hm
          have h3 := wsSpan_len l
          rw [hw] at h3
          simp at h3
          have hr1 : rest.length ≤ f := by omega
          have hr2 : rest.length ≤ g := by omega
          rw [ih g rest hr1 hr2]

theorem liStarExt_none {l ws l1 : List Char}
    (hw : wsSpan l = (ws, l1)) (hm : matchLiUnit l1 = none) :
    liStarExt l = ([], l) := by
  show liStarExtF l.length l = ([], l)
  rw [liStarExtF_congr l.length (l.length + 1) l (Nat.le_refl _) (Nat.le_succ _)]
  rw [liStarExtF_none hw hm]

theorem liStarExt_some {l ws l1 m rest : List Char}
    (hw : wsSpan l = (ws, l1)) (hm : matchLiUnit l1 = some (m, rest)) :
    liStarExt l = (ws ++ m ++ (liStarExt rest).1, (liStarExt rest).2) := by
  show liStarExtF l.length l = _
  rw [liStarExtF_congr l.length (l.length + 1) l (Nat.le_refl _) (Nat.le_succ _)]
  rw [liStarExtF_some hw hm]
  have h2 := matchLiUnit_len l1 m rest hm
  have h3 := wsSpan_len l
  rw [hw] at h3
  simp at h3
  rw [liStarExtF_congr l.length rest.length rest (by omega) (Nat.le_refl _)]
  rfl

theorem wrapListsF_nil : ∀ f, wrapListsF f [] = [] := by
  intro f; cases f <;> rfl

theorem wrapListsF_some {l m rest m2 rest2 : List Char} {f : Nat}
    (hm : matchLiUnit l = some (m, rest)) (hls : liStarExt rest = (m2, rest2)) :
    wrapListsF (f + 1) l = ulOpen ++ m ++ m2 ++ ("</ul>").data ++ wrapListsF f rest2 := by
  simp only [wrapListsF, hm, hls]

theorem wrapListsF_none_cons {c : Char} {rest : List Char} {f : Nat}
    (hm : matchLiUnit (c :: rest) = none) :
    wrapListsF (f + 1) (c :: rest) = c :: wrapListsF f rest := by
  simp only [wrapListsF, hm]

theorem wrapListsF_congr :
    ∀ f g l, l.length ≤ f → l.length ≤ g → wrapListsF f l = wrapListsF g l := by
  intro f
  induction f with
  | zero =>
    intro g l hf _
    have hl : l = [] := List.length_eq_zero.mp (Nat.le_zero.mp hf)
    subst hl
    rw [wrapListsF_nil, wrapListsF_nil]
  | succ f ih =>
    intro g l hf hg
    cases l with
    | nil => rw [wrapListsF_nil, wrapListsF_nil]
    | cons c rest =>
      cases g with
      | zero => simp at hg
      | succ g =>
        cases hm : matchLiUnit (c :: rest) with
        | some pr =>
          obtain ⟨m, rest1⟩ := pr
          cases hls : liStarExt rest1 with
          | mk m2 rest2 =>
            rw [wrapListsF_some hm hls, wrapListsF_some hm hls]
            have h1 := matchLiUnit_len (c :: rest) m rest1 hm
            have h2 : rest2.length ≤ rest1.length := by
              have := liStarExtF_snd_len rest1.length rest1
              rw [show liStarExtF rest1.length rest1 = liStarExt rest1 from rfl, hls] at this
              exact this
            simp only [List.length_cons] at h1 hf hg
            have hr1 : rest2.length ≤ f := by omega
            have hr2 : rest2.length ≤ g := by omega
            rw [ih g rest2 hr1 hr2]
        | none =>
          rw [wrapListsF_none_cons hm, wrapListsF_none_cons hm]
          have hr1 : rest.length ≤ f := by simp at hf; omega
          have hr2 : rest.length ≤ g := by simp at hg; omega
          rw [ih g rest hr1 hr2]

theorem wrapLists_nil : wrapLists [] = [] := rfl

theorem wrapLists_some {l m rest m2 rest2 : List Char}
    (hm : matchLiUnit l = some (m, rest)) (hls : liStarExt rest = (m2, rest2)) :
    wrapLists l = ulOpen ++ m ++ m2 ++ ("</ul>").data ++ wrapLists rest2 := by
  show wrapListsF l.length l = _
  rw [wrapListsF_congr l.length (l.length + 1) l (Nat.le_refl _) (Nat.le_succ _)]
  rw [wrapListsF_some hm hls]
  have h1 := matchLiUnit_len l m rest hm
  have h2 : rest2.length ≤ rest.length := by
    have := liStarExtF_snd_len rest.length rest
    rw [show liStarExtF rest.length rest = liStarExt rest from rfl, hls] at this
    exact this
  rw [wrapListsF_congr l.length rest2.length rest2 (by omega) (Nat.le_refl _)]
  rfl

theorem wrapLists_none_cons {c : Char} {rest : List Char}
    (hm : matchLiUnit (c :: rest) = none) :
    wrapLists (c :: rest) = c :: wrapLists rest := by
  show wrapListsF (rest.length + 1) (c :: rest) = c :: wrapListsF rest.length rest
  rw [wrapListsF_none_cons hm]

/-! ### The display back-end on a run of list-item lines -/

def liAttrs : List Char := (" style=\"margin-bottom: 0.5rem;\"").data

/-- One emitted `<li …>…</li>` block of the display back-end. -/
def liBlock (t : List Char) : List Char := liOpen ++ t ++ ("</li>").data

/-- The newline-joined sequence of `<li>` blocks for the given item texts. -/
def liRun (ts : List (List Char)) : List Char := joinNL (ts.map liBlock)

theorem liOpen_shape : liOpen = '<' :: 'l' :: 'i' :: (liAttrs ++ ['>']) := by decide

theorem liCloseShape : ("</li>").data = '<' :: '/' :: 'l' :: 'i' :: '>' :: [] := by decide

theorem matchLiUnit_liBlock (t : List Char) (ht : splitLiClose t = none) (z : List Char) :
    matchLiUnit (liBlock t ++ z) = some (liBlock t, z) := by
  have hsh : liBlock t ++ z =
      '<' :: 'l' :: 'i' :: (liAttrs ++ '>' :: (t ++ '<' :: '/' :: 'l' :: 'i' :: '>' :: z)) := by
    simp [liBlock, liOpen_shape, liCloseShape, List.append_assoc]
  rw [hsh]
  rw [matchLiUnit_li_some (attrSplit_append liAttrs (by decide) _)
    (splitLiClose_append_none t ht z)]
  simp [liBlock, liOpen_shape, liCloseShape, List.append_assoc]

theorem liRun_single (t : List Char) : liRun [t] = liBlock t := rfl

theorem liRun_cons (t u : List Char) (us : List (List Char)) :
    liRun (t :: u :: us) = liBlock t ++ '\n' :: liRun (u :: us) := rfl

theorem liRun_head (t : List Char) (ts : List (List Char)) :
    ∃ r, liRun (t :: ts) = '<' :: r := by
  cases ts with
  | nil =>
    refine ⟨'l' :: 'i' :: (liAttrs ++ ['>']) ++ t ++ ("</li>").data, ?_⟩
    rw [liRun_single]
    simp [liBlock, liOpen_shape, List.append_assoc]
  | cons u us =>
    refine ⟨'l' :: 'i' :: (liAttrs ++ ['>']) ++ t ++ ("</li>").data ++ '\n' :: liRun (u :: us), ?_⟩
    rw [liRun_cons]
    simp [liBlock, liOpen_shape, List.append_assoc]

theorem wsSpan_liRun (t : List Char) (ts : List (List Char)) :
    wsSpan (liRun (t :: ts)) = ([], liRun (t :: ts)) := by
  obtain ⟨r, hr⟩ := liRun_head t ts
  rw [hr, wsSpan_cons_nospace (by decide)]

theorem matchLiUnit_liRun (t : List Char) (ht : splitLiClose t = none) :
    ∀ ts : List (List Char),
      matchLiUnit (liRun (t :: ts)) =
        some (liBlock t, if ts = [] then [] else '\n' :: liRun ts) := by
  intro ts
  cases ts with
  | nil =>
    rw [liRun_single, if_pos rfl]
    have := matchLiUnit_liBlock t ht []
    rwa [List.append_nil] at this
  | cons u us =>
    rw [liRun_cons, if_neg (by simp)]
    exact matchLiUnit_liBlock t ht ('\n' :: liRun (u :: us))

theorem liStarExt_liRun :
    ∀ ts : List (List Char), ts ≠ [] → (∀ t ∈ ts, splitLiClose t = none) →
      liStarExt ('\n' :: liRun ts) = ('\n' :: liRun ts, []) := by
  intro ts
  induction ts with
  | nil => intro h _; exact absurd rfl h
  | cons t ts ih =>
    intro _ h
    have hw : wsSpan ('\n' :: liRun (t :: ts)) = (['\n'], liRun (t :: ts)) := by
      rw [wsSpan_cons_space (by decide), wsSpan_liRun]
    have hm := matchLiUnit_liRun t (h t (List.mem_cons_self _ _)) ts
    cases ts with
    | nil =>
      rw [if_pos rfl] at hm
      rw [liStarExt_some hw hm]
      show ('\n' :: (liBlock t ++ (liStarExt []).1), (liStarExt []).2) = _
      rw [show liStarExt [] = ([], []) from rfl]
      simp [liRun_single]
    | cons u us =>
      rw [if_neg (by simp)] at hm
      rw [liStarExt_some hw hm]
      rw [ih (by simp) (fun z hz => h z (List.mem_cons_of_mem _ hz))]
      show ('\n' :: (liBlock t ++ ('\n' :: liRun (u :: us))), []) = _
      rw [liRun_cons]

theorem wrapLists_liRun :
    ∀ ts : List (List Char), ts ≠ [] → (∀ t ∈ ts, splitLiClose t = none) →
      wrapLists (liRun ts) = ulOpen ++ liRun ts ++ ("</ul>").data := by
  intro ts hne h
  cases ts with
  | nil => exact absurd rfl hne
  | cons t ts =>
    have hm := matchLiUnit_liRun t (h t (List.mem_cons_self _ _)) ts
    cases ts with
    | nil =>
      rw [if_pos rfl] at hm
      rw [wrapLists_some hm (show liStarExt [] = ([], []) from rfl)]
      rw [wrapLists_nil, liRun_single]
      simp
    | cons u us =>
      rw [if_neg (by simp)] at hm
      have hstar := liStarExt_liRun (u :: us) (by simp)
        (fun z hz => h z (List.mem_cons_of_mem _ hz))
      rw [wrapLists_some hm hstar, wrapLists_nil, liRun_cons]
      simp [List.append_assoc]

/-! ### Clean item texts -/

/-- An item text made only of alphanumeric characters (nonempty): such a text
is untouched by stripping and by all three inline passes and contains no
markup-relevant character. -/
def CleanItem (t : List Char) : Prop := t ≠ [] ∧ t.all Char.isAlphanum = true

instance (t : List Char) : Decidable (CleanItem t) := instDecidableAnd

theorem CleanItem.mem {t : List Char} (h : CleanItem t) : ∀ c ∈ t, c.isAlphanum = true := by
  have := h.2
  rw [List.all_eq_true] at this
  exact this

theorem alphanum_props {c : Char} (h : c.isAlphanum = true) :
    pySpace c = false ∧ c ≠ '*' ∧ c ≠ ':' ∧ c ≠ '<' ∧ c ≠ '\n' := by
  refine ⟨?_, ?_, ?_, ?_, ?_⟩
  · cases hs : pySpace c with
    | false => rfl
    | true =>
      exfalso
      revert h
      simp only [pySpace, Bool.or_eq_true, decide_eq_true_eq] at hs
      rcases hs with (((((h1 | h1) | h1) | h1) | h1) | h1) <;> subst h1 <;> decide
  · intro hh; subst hh; exact absurd h (by decide)
  · intro hh; subst hh; exact absurd h (by decide)
  · intro hh; subst hh; exact absurd h (by decide)
  · intro hh; subst hh; exact absurd h (by decide)

theorem process_line_dash_clean (t : List Char) (h : CleanItem t) :
    process_line ('-' :: ' ' :: t) = some (liBlock t) := by
  have hal := h.mem
  obtain ⟨hne, -⟩ := h
  have hsp : ∀ c ∈ t, pySpace c = false := fun c hc => (alphanum_props (hal c hc)).1
  have hstar : '*' ∉ t := fun hm => (alphanum_props (hal '*' hm)).2.1 rfl
  have hstrip_t : pyStripL t = t := pyStripL_all_nonspace t hsp
  have hstrip : pyStripL ('-' :: ' ' :: t) = '-' :: ' ' :: t :=
    pyStripL_dash_space hstrip_t hne
  simp only [process_line, hstrip]
  rw [if_neg (by simp)]
  show some (liOpen ++ htmlItalic (htmlBold (pyStripL t)) ++ ("</li>").data) = some (liBlock t)
  rw [hstrip_t]
  rw [show htmlBold t = t from boldSub_no_star _ _ t hstar]
  rw [show htmlItalic t = t from italicAuxH_no_star _ _ t hstar false]
  rfl

theorem pdfProcessLine_dash_clean (t : List Char) (h : CleanItem t) :
    pdfProcessLine ('-' :: ' ' :: t) =
      some (PBlock.para (String.mk ('•' :: ' ' :: t)) PStyle.normal) := by
  have hal := h.mem
  obtain ⟨hne, -⟩ := h
  have hsp : ∀ c ∈ t, pySpace c = false := fun c hc => (alphanum_props (hal c hc)).1
  have hstar : '*' ∉ t := fun hm => (alphanum_props (hal '*' hm)).2.1 rfl
  have hcol : ':' ∉ t := fun hm => (alphanum_props (hal ':' hm)).2.2.1 rfl
  have hstar2 : '*' ∉ '-' :: ' ' :: t := by
    intro hm
    rcases List.mem_cons.mp hm with h1 | hm
    · exact absurd h1 (by decide)
    · rcases List.mem_cons.mp hm with h1 | hm
      · exact absurd h1 (by decide)
      · exact hstar hm
  have hcol2 : ':' ∉ '-' :: ' ' :: t := by
    intro hm
    rcases List.mem_cons.mp hm with h1 | hm
    · exact absurd h1 (by decide)
    · rcases List.mem_cons.mp hm with h1 | hm
      · exact absurd h1 (by decide)
      · exact hcol hm
  have hstrip_t : pyStripL t = t := pyStripL_all_nonspace t hsp
  have hstrip : pyStripL ('-' :: ' ' :: t) = '-' :: ' ' :: t :=
    pyStripL_dash_space hstrip_t hne
  simp only [pdfProcessLine, hstrip]
  rw [if_neg (by simp)]
  rw [show pdfBold ('-' :: ' ' :: t) = '-' :: ' ' :: t from boldSub_no_star _ _ _ hstar2]
  rw [show pdfItalic ('-' :: ' ' :: t) = '-' :: ' ' :: t from
    italicAuxP_no_star _ _ _ hstar2 false]
  rw [show pdfUrl ('-' :: ' ' :: t) = '-' :: ' ' :: t from urlSub_no_colon _ hcol2]
  rfl

theorem dash_lines_no_nl (ts : List (List Char)) (hcl : ∀ t ∈ ts, CleanItem t) :
    ∀ x ∈ ts.map (fun t => '-' :: ' ' :: t), '\n' ∉ x := by
  intro x hx
  rw [List.mem_map] at hx
  obtain ⟨t, ht, rfl⟩ := hx
  intro hm
  rcases List.mem_cons.mp hm with h1 | hm
  · exact absurd h1 (by decide)
  rcases List.mem_cons.mp hm with h1 | hm
  · exact absurd h1 (by decide)
  · exact (alphanum_props ((hcl t ht).mem '\n' hm)).2.2.2.2 rfl

theorem joinNL_cons_ne {x : List Char} (hx : x ≠ []) (xs : List (List Char)) :
    joinNL (x :: xs) ≠ [] := by
  cases xs with
  | nil => exact hx
  | cons y ys =>
    show x ++ '\n' :: joinNL (y :: ys) ≠ []
    simp

theorem dash_run_renders (ts : List (List Char)) (hne : ts ≠ [])
    (hcl : ∀ t ∈ ts, CleanItem t) :
    process_markdown_to_html (String.mk (joinNL (ts.map (fun t => '-' :: ' ' :: t)))) =
      String.mk (ulOpen ++ liRun ts ++ ("</ul>").data) ∧
    generate_pdf_body (String.mk (joinNL (ts.map (fun t => '-' :: ' ' :: t)))) =
      ts.map (fun t => PBlock.para (String.mk ('•' :: ' ' :: t)) PStyle.normal) := by
  have hlne : ts.map (fun t => '-' :: ' ' :: t) ≠ [] := by
    cases ts with
    | nil => exact absurd rfl hne
    | cons t ts => simp
  have hnonl := dash_lines_no_nl ts hcl
  have hjoin_ne : joinNL (ts.map (fun t => '-' :: ' ' :: t)) ≠ [] := by
    cases ts with
    | nil => exact absurd rfl hne
    | cons t ts => exact joinNL_cons_ne (by simp) _
  have hsplit : splitLines (String.mk (joinNL (ts.map (fun t => '-' :: ' ' :: t)))).data =
      ts.map (fun t => '-' :: ' ' :: t) :=
    splitLines_joinNL _ hlne hnonl
  have hcontent : String.mk (joinNL (ts.map (fun t => '-' :: ' ' :: t))) ≠ "" := by
    intro h
    exact hjoin_ne (congrArg String.data h)
  constructor
  · simp only [process_markdown_to_html]
    rw [if_neg hcontent, hsplit]
    rw [filterMap_all_some process_line (fun line => liBlock (line.drop 2)) _
      (by
        intro x hx
        rw [List.mem_map] at hx
        obtain ⟨t, ht, rfl⟩ := hx
        exact process_line_dash_clean t (hcl t ht))]
    rw [List.map_map]
    rw [show (ts.map ((fun line => liBlock (line.drop 2)) ∘ (fun t => '-' :: ' ' :: t))) =
      ts.map liBlock from rfl]
    rw [show joinNL (ts.map liBlock) = liRun ts from rfl]
    rw [wrapLists_liRun ts hne
      (fun t ht => splitLiClose_none_of_no_lt t
        (fun hm => (alphanum_props ((hcl t ht).mem '<' hm)).2.2.2.1 rfl))]
  · simp only [generate_pdf_body]
    rw [hsplit]
    rw [filterMap_all_some pdfProcessLine
      (fun line => PBlock.para (String.mk ('•' :: ' ' :: line.drop 2)) PStyle.normal) _
      (by
        intro x hx
        rw [List.mem_map] at hx
        obtain ⟨t, ht, rfl⟩ := hx
        exact pdfProcessLine_dash_clean t (hcl t ht))]
    rw [List.map_map]
    rfl

/-! ### Claim-specific helper lemmas -/

theorem process_line_dash (r : List Char) (hr : pyStripL r = r) (hne : r ≠ []) :
    process_line ('-' :: ' ' :: r) =
      some (liOpen ++ htmlItalic (htmlBold r) ++ ("</li>").data) := by
  have hstrip := pyStripL_dash_space hr hne
  simp only [process_line, hstrip]
  rw [if_neg (by simp)]
  show some (liOpen ++ htmlItalic (htmlBold (pyStripL r)) ++ ("</li>").data) = _
  rw [hr]

theorem pdfBold_dash (x : List Char) : pdfBold ('-' :: ' ' :: x) = '-' :: ' ' :: pdfBold x := by
  unfold pdfBold boldSub
  show boldSubF _ _ (x.length + 1 + 1) _ = _
  rw [boldSubF_cons _ _ (by decide), boldSubF_cons _ _ (by decide)]

theorem pdfItalic_dash (x : List Char) :
    pdfItalic ('-' :: ' ' :: x) = '-' :: ' ' :: pdfItalic x := by
  unfold pdfItalic
  rw [italicSubP_eq_aux, italicAuxP_cons _ _ (by decide), italicAuxP_cons _ _ (by decide),
    ← italicSubP_eq_aux]

theorem pdfUrl_dash (x : List Char) : pdfUrl ('-' :: ' ' :: x) = '-' :: ' ' :: pdfUrl x := by
  unfold pdfUrl
  rw [urlSub_cons _ (by decide), urlSub_cons _ (by decide)]

theorem pdfProcessLine_dash (r : List Char) (hr : pyStripL r = r) (hne : r ≠ []) :
    pdfProcessLine ('-' :: ' ' :: r) =
      some (PBlock.para (String.mk ('•' :: ' ' :: pdfUrl (pdfItalic (pdfBold r))))
        PStyle.normal) := by
  have hstrip := pyStripL_dash_space hr hne
  simp only [pdfProcessLine, hstrip]
  rw [if_neg (by simp)]
  rw [pdfBold_dash, pdfItalic_dash, pdfUrl_dash]
  rfl

theorem pdfProcessLine_isSome (l : List Char) (h : pyStripL l ≠ []) :
    pdfProcessLine l ≠ none := by
  have hproc : pdfUrl (pdfItalic (pdfBold (pyStripL l))) ≠ [] := by
    apply urlSub_ne_nil
    · intro u
      show ("<link href=\"").data ++ u ++ ("\">").data ++ u ++ ("</link>").data ≠ []
      simp [List.append_eq_nil]
    · show italicAuxP _ _ false (pdfBold (pyStripL l)) ≠ []
      apply italicAuxP_ne_nil _ _ (by decide)
      exact boldSub_ne_nil _ _ (by decide) _ h
  simp only [pdfProcessLine]
  rw [if_neg h]
  split
  · simp
  · simp
  · simp
  · simp
  · simp
  · rw [if_neg hproc]
    simp

theorem filterMap_format (extra : List (Except String SearchResponse)) :
    extra.filterMap (fun x =>
      match x with
      | .ok r => some (format_response r)
      | .error _ => none) =
      (extra.filterMap Except.toOption).map format_response := by
  induction extra with
  | nil => rfl
  | cons x rest ih =>
    cases x with
    | ok r => simp [List.filterMap_cons, Except.toOption, ih]
    | error e => simp [List.filterMap_cons, Except.toOption, ih]

/-! ### Claim theorems -/

set_option maxRecDepth 100000

instance {e a : Type} [DecidableEq e] [DecidableEq a] : DecidableEq (Except e a) := fun x y =>
  match x, y with
  | .ok v, .ok w =>
    if h : v = w then .isTrue (by rw [h])
    else .isFalse (fun hh => h (by injection hh))
  | .error v, .error w =>
    if h : v = w then .isTrue (by rw [h])
    else .isFalse (fun hh => h (by injection hh))
  | .ok _, .error _ => .isFalse (fun hh => Except.noConfusion hh)
  | .error _, .ok _ => .isFalse (fun hh => Except.noConfusion hh)

/-- C1 counterexample: the claim says both back-ends apply the inline
transformations to heading text, but the display back-end emits the heading
line `# **b**` with its `**` markers untouched, while the transformed text
would be `<strong>b</strong>`, which differs. -/
theorem C1_counterexample :
    process_markdown_to_html ("# **b**") =
      "<h1 style=\"color: #1e40af; margin-top: 2.5rem; margin-bottom: 1.5rem; padding-bottom: 0.5rem; border-bottom: 3px solid #3b82f6;\">**b**</h1>" ∧
    String.mk (htmlUrl (htmlItalic (htmlBold (("**b**").data)))) = "<strong>b</strong>" ∧
    (("**b**" : String) == "<strong>b</strong>") = false := by
  refine ⟨by decide, by decide, by decide⟩

/-- C2 counterexample: for the line `* a *b*` the document back-end applies
the italic pass to the whole line, so the match consumes the `* ` prefix;
after slicing two characters the emitted bullet text is `> a </i>b*`, which
is not the transformed remainder `a <i>b</i>`. -/
theorem C2_counterexample :
    generate_pdf_body ("* a *b*") = [PBlock.para ("• > a </i>b*") PStyle.normal] ∧
    String.mk (pdfUrl (pdfItalic (pdfBold (("a *b*").data)))) = "a <i>b</i>" ∧
    (("> a </i>b*" : String) == "a <i>b</i>") = false := by
  refine ⟨by decide, by decide, by decide⟩

/-- C3: at a concrete primary response with answer `P` and one successful
supplementary response with answer `S`, `advanced_search` returns the
50-character divider exactly once, glued directly before the primary block,
and the two blocks separated only by a blank line — there is no divider
between the primary and the supplementary block, because
`"\n\n" + "="*50 + "\n\n".join(all_results)` places the divider outside the
join separator. -/
theorem C3_divider_eval :
    advanced_search (.ok ⟨some "P", []⟩) [.ok ⟨some "S", []⟩] =
      .ok ("\n\n" ++ String.mk (List.replicate 50 '=') ++
        "**INSIGHT:** P\n" ++ "\n\n" ++ "**INSIGHT:** S\n") ∧
    ("\n\n" ++ String.mk (List.replicate 50 '=') ++
        "**INSIGHT:** P\n" ++ "\n\n" ++ "**INSIGHT:** S\n").data.count '=' = 50 := by
  refine ⟨by decide, by decide⟩

/-- C5: rendering `*a **b** c*` does not mis-nest in either back-end: the
italic element wraps the full span and the embedded bold element stays bold
inside it, as forced by the bold-before-italic two-pass order. -/
theorem C5_bold_italic_nesting :
    process_markdown_to_html ("*a **b** c*") =
      "<p style=\"margin-bottom: 1rem; line-height: 1.6;\"><em>a <strong>b</strong> c</em></p>" ∧
    generate_pdf_body ("*a **b** c*") =
      [PBlock.para ("<i>a <b>b</b> c</i>") PStyle.normal] := by
  refine ⟨by decide, by decide⟩

/-- C6: rendering `See **https://x.test/p** now` produces, in both back-ends,
a bold element containing a link whose target and visible text are exactly
`https://x.test/p`, with the surrounding text outside the link: the link
pass, running after bold substitution, stops at the `<` of the closing bold
tag and does not consume the style markup. -/
theorem C6_url_in_bold :
    process_markdown_to_html ("See **https://x.test/p** now") =
      "<p style=\"margin-bottom: 1rem; line-height: 1.6;\">See <strong><a href=\"https://x.test/p\" target=\"_blank\" style=\"color: #3b82f6; text-decoration: underline;\">https://x.test/p</a></strong> now</p>" ∧
    generate_pdf_body ("See **https://x.test/p** now") =
      [PBlock.para ("See <b><link href=\"https://x.test/p\">https://x.test/p</link></b> now")
        PStyle.normal] := by
  refine ⟨by decide, by decide⟩

/-- C7: if the primary search fails, `advanced_search` raises a retrieval
error; if the primary succeeds, the bundle consists of the formatted primary
block followed by the formatted blocks of exactly the successful
supplementary queries, in order, omitting failed ones — shown generally and
at a concrete input with one failed and one successful supplementary query. -/
theorem C7_aggregate_errors :
    (∀ (e : String) (supps : List (Except String SearchResponse)),
      advanced_search (.error e) supps = .error ("Search failed: " ++ e)) ∧
    (∀ (r : SearchResponse) (supps : List (Except String SearchResponse)),
      advanced_search (.ok r) supps =
        .ok ("\n\n" ++ String.mk (List.replicate 50 '=') ++
          String.intercalate "\n\n"
            (format_response r :: (supps.filterMap Except.toOption).map format_response))) ∧
    advanced_search (.ok ⟨some "P", []⟩) [.error "boom", .ok ⟨some "S", []⟩] =
      .ok ("\n\n" ++ String.mk (List.replicate 50 '=') ++
        ("**INSIGHT:** P\n" ++ "\n\n" ++ "**INSIGHT:** S\n")) := by
  refine ⟨fun e supps => rfl, fun r supps => ?_, by decide⟩
  simp only [advanced_search, filterMap_format]

/-- C8: the session pair is written only after the search and all four agent
stages succeed: if the critique stage fails (after search, research and
summarization succeeded) the state is unchanged, and in general the run
either leaves the state unchanged or every stage succeeded and the state
holds exactly the final report and the query. -/
theorem C8_pipeline_update
    (search : String → Except String String)
    (research : String → String → Except String String)
    (summarize : String → Except String String)
    (critic : String → Except String String)
    (write : String → String → String → Except String String)
    (st0 : SessionState) (query : String) :
    (∀ sr rd sm e, search query = .ok sr → research query sr = .ok rd →
      summarize rd = .ok sm → critic sm = .error e →
      runResearch search research summarize critic write st0 query = st0) ∧
    (runResearch search research summarize critic write st0 query = st0 ∨
      ∃ sr rd sm cq fr, search query = .ok sr ∧ research query sr = .ok rd ∧
        summarize rd = .ok sm ∧ critic sm = .ok cq ∧ write rd sm cq = .ok fr ∧
        runResearch search research summarize critic write st0 query =
          { research_result := some fr, research_query := query }) := by
  constructor
  · intro sr rd sm e hs hr hm hc
    simp only [runResearch, hs, hr, hm, hc]
  · cases hs : search query with
    | error e => exact Or.inl (by simp only [runResearch, hs])
    | ok sr =>
      cases hr : research query sr with
      | error e => exact Or.inl (by simp only [runResearch, hs, hr])
      | ok rd =>
        cases hm : summarize rd with
        | error e => exact Or.inl (by simp only [runResearch, hs, hr, hm])
        | ok sm =>
          cases hc : critic sm with
          | error e => exact Or.inl (by simp only [runResearch, hs, hr, hm, hc])
          | ok cq =>
            cases hw : write rd sm cq with
            | error e => exact Or.inl (by simp only [runResearch, hs, hr, hm, hc, hw])
            | ok fr =>
              exact Or.inr ⟨sr, rd, sm, cq, fr, rfl, hr, hm, hc, hw,
                by simp only [runResearch, hs, hr, hm, hc, hw]⟩

theorem C8_pipeline_update_witness :
    runResearch (fun _ => .ok "S") (fun _ _ => .ok "R") (fun _ => .ok "M")
      (fun _ => .error "fail") (fun _ _ _ => .ok "W")
      { research_result := some "old", research_query := "oldq" } "q" =
      { research_result := some "old", research_query := "oldq" } :=
  (C8_pipeline_update (fun _ => .ok "S") (fun _ _ => .ok "R") (fun _ => .ok "M")
      (fun _ => .error "fail") (fun _ _ _ => .ok "W")
      { research_result := some "old", research_query := "oldq" } "q").1
    "S" "R" "M" "fail" rfl rfl rfl rfl

/-- C9 counterexample: the unmatched `**bold` is not preserved by the display
back-end — its italic pass matches the adjacent asterisks as an empty italic
element, so the output paragraph contains no asterisk at all. -/
theorem C9_counterexample :
    process_markdown_to_html ("**bold") =
      "<p style=\"margin-bottom: 1rem; line-height: 1.6;\"><em></em>bold</p>" ∧
    (("<p style=\"margin-bottom: 1rem; line-height: 1.6;\"><em></em>bold</p>").data.count '*'
      = 0) := by
  refine ⟨by decide, by decide⟩

/-- C9 amended: `**bold**` yields a bold element with no residual asterisks
in both back-ends; the unmatched `**bold` is preserved untouched by the
document back-end, but the display back-end's italic pass converts the `**`
pair into an empty italic element, removing the asterisks. -/
theorem C9_amended_delimiters :
    process_markdown_to_html ("**bold**") =
      "<p style=\"margin-bottom: 1rem; line-height: 1.6;\"><strong>bold</strong></p>" ∧
    generate_pdf_body ("**bold**") = [PBlock.para ("<b>bold</b>") PStyle.normal] ∧
    generate_pdf_body ("**bold") = [PBlock.para ("**bold") PStyle.normal] ∧
    process_markdown_to_html ("**bold") =
      "<p style=\"margin-bottom: 1rem; line-height: 1.6;\"><em></em>bold</p>" := by
  refine ⟨by decide, by decide, by decide, by decide⟩

/-- C10 counterexample: for the line `****` the transformed text is the
nonempty `<strong></strong>` / `<b></b>`, so the display back-end's
paragraph is not empty and the document back-end does emit a block — both
back-ends emit one block, contradicting the claimed disagreement. -/
theorem C10_counterexample :
    generate_pdf_body ("****") = [PBlock.para ("<b></b>") PStyle.normal] ∧
    (generate_pdf_body ("****")).length = 1 ∧
    process_markdown_to_html ("****") =
      "<p style=\"margin-bottom: 1rem; line-height: 1.6;\"><strong></strong></p>" := by
  refine ⟨by decide, by decide, by decide⟩

/-- C10 amended: the inline transformations never map a non-blank line to an
empty text, so the document back-end emits a block for every non-blank line
(its emptiness guard never fires); in particular for `****` the display
back-end emits a paragraph holding an empty bold element and the document
back-end emits a normal paragraph holding an empty bold element — the two
back-ends agree on this input. -/
theorem C10_amended_nonempty :
    (∀ l : List Char, pyStripL l ≠ [] → pdfProcessLine l ≠ none) ∧
    generate_pdf_body ("****") = [PBlock.para ("<b></b>") PStyle.normal] ∧
    process_markdown_to_html ("****") =
      "<p style=\"margin-bottom: 1rem; line-height: 1.6;\"><strong></strong></p>" :=
  ⟨pdfProcessLine_isSome, by decide, by decide⟩

theorem C10_amended_nonempty_witness :
    pyStripL (("****").data) ≠ [] ∧ pdfProcessLine (("****").data) ≠ none :=
  ⟨by decide, C10_amended_nonempty.1 (("****").data) (by decide)⟩

/-! ### Universal per-line characterization of both back-ends -/

theorem process_line_h3 (l r : List Char) (h : pyStripL l = '#' :: '#' :: '#' :: ' ' :: r) :
    process_line l = some (h3Open ++ r ++ ("</h3>").data) := by
  simp only [process_line, h]
  rw [if_neg (by simp)]

theorem process_line_h2 (l r : List Char) (h : pyStripL l = '#' :: '#' :: ' ' :: r) :
    process_line l = some (h2Open ++ r ++ ("</h2>").data) := by
  simp only [process_line, h]
  rw [if_neg (by simp)]

theorem process_line_h1 (l r : List Char) (h : pyStripL l = '#' :: ' ' :: r) :
    process_line l = some (h1Open ++ r ++ ("</h1>").data) := by
  simp only [process_line, h]
  rw [if_neg (by simp)]

theorem process_line_li_dash (l r : List Char) (h : pyStripL l = '-' :: ' ' :: r) :
    process_line l = some (liOpen ++ htmlItalic (htmlBold (pyStripL r)) ++ ("</li>").data) := by
  simp only [process_line, h]
  rw [if_neg (by simp)]

theorem process_line_li_star (l r : List Char) (h : pyStripL l = '*' :: ' ' :: r) :
    process_line l = some (liOpen ++ htmlItalic (htmlBold (pyStripL r)) ++ ("</li>").data) := by
  simp only [process_line, h]
  rw [if_neg (by simp)]

theorem process_line_para (l p : List Char) (h : pyStripL l = p) (hne : p ≠ [])
    (k3 : ∀ r, p ≠ '#' :: '#' :: '#' :: ' ' :: r) (k2 : ∀ r, p ≠ '#' :: '#' :: ' ' :: r)
    (k1 : ∀ r, p ≠ '#' :: ' ' :: r) (kd : ∀ r, p ≠ '-' :: ' ' :: r)
    (ks : ∀ r, p ≠ '*' :: ' ' :: r) :
    process_line l = some (pOpen ++ htmlUrl (htmlItalic (htmlBold p)) ++ ("</p>").data) := by
  simp only [process_line, h]
  rw [if_neg hne]

theorem pdfTransform_ne_nil (p : List Char) (hne : p ≠ []) :
    pdfUrl (pdfItalic (pdfBold p)) ≠ [] := by
  apply urlSub_ne_nil
  · intro u
    show ("<link href=\"").data ++ u ++ ("\">").data ++ u ++ ("</link>").data ≠ []
    simp [List.append_eq_nil]
  · show italicAuxP _ _ false (pdfBold p) ≠ []
    apply italicAuxP_ne_nil _ _ (by decide)
    exact boldSub_ne_nil _ _ (by decide) _ hne

theorem pdfProcessLine_h1 (l r : List Char) (h : pyStripL l = '#' :: ' ' :: r) :
    pdfProcessLine l = some (PBlock.para
      (String.mk ((pdfUrl (pdfItalic (pdfBold (pyStripL l)))).drop 2)) PStyle.heading1) := by
  simp only [pdfProcessLine]
  rw [h, if_neg (by simp)]
  rfl

theorem pdfProcessLine_h2 (l r : List Char) (h : pyStripL l = '#' :: '#' :: ' ' :: r) :
    pdfProcessLine l = some (PBlock.para
      (String.mk ((pdfUrl (pdfItalic (pdfBold (pyStripL l)))).drop 3)) PStyle.heading2) := by
  simp only [pdfProcessLine]
  rw [h, if_neg (by simp)]
  rfl

theorem pdfProcessLine_h3 (l r : List Char) (h : pyStripL l = '#' :: '#' :: '#' :: ' ' :: r) :
    pdfProcessLine l = some (PBlock.para
      (String.mk ((pdfUrl (pdfItalic (pdfBold (pyStripL l)))).drop 4)) PStyle.heading3) := by
  simp only [pdfProcessLine]
  rw [h, if_neg (by simp)]
  rfl

theorem pdfProcessLine_li_dash (l r : List Char) (h : pyStripL l = '-' :: ' ' :: r) :
    pdfProcessLine l = some (PBlock.para
      (String.mk ('•' :: ' ' :: (pdfUrl (pdfItalic (pdfBold (pyStripL l)))).drop 2))
      PStyle.normal) := by
  simp only [pdfProcessLine]
  rw [h, if_neg (by simp)]
  rfl

theorem pdfProcessLine_li_star (l r : List Char) (h : pyStripL l = '*' :: ' ' :: r) :
    pdfProcessLine l = some (PBlock.para
      (String.mk ('•' :: ' ' :: (pdfUrl (pdfItalic (pdfBold (pyStripL l)))).drop 2))
      PStyle.normal) := by
  simp only [pdfProcessLine]
  rw [h, if_neg (by simp)]
  rfl

theorem pdfProcessLine_para (l p : List Char) (h : pyStripL l = p) (hne : p ≠ [])
    (k1 : ∀ r, p ≠ '#' :: ' ' :: r) (k2 : ∀ r, p ≠ '#' :: '#' :: ' ' :: r)
    (k3 : ∀ r, p ≠ '#' :: '#' :: '#' :: ' ' :: r) (kd : ∀ r, p ≠ '-' :: ' ' :: r)
    (ks : ∀ r, p ≠ '*' :: ' ' :: r) :
    pdfProcessLine l = some (PBlock.para
      (String.mk (pdfUrl (pdfItalic (pdfBold p)))) PStyle.normal) := by
  simp only [pdfProcessLine, h]
  rw [if_neg hne, if_neg (pdfTransform_ne_nil p hne)]

theorem pyStripL_nil : pyStripL [] = [] := rfl

theorem li_run_renders (ls : List (List Char)) (hne : ls ≠ [])
    (hnl : ∀ l ∈ ls, '\n' ∉ l)
    (hshape : ∀ l ∈ ls, pyStripL l = '-' :: ' ' :: (pyStripL l).drop 2 ∨
      pyStripL l = '*' :: ' ' :: (pyStripL l).drop 2)
    (hclose : ∀ l ∈ ls,
      splitLiClose (htmlItalic (htmlBold (pyStripL ((pyStripL l).drop 2)))) = none) :
    process_markdown_to_html (String.mk (joinNL ls)) =
      String.mk (ulOpen ++
        liRun (ls.map (fun l => htmlItalic (htmlBold (pyStripL ((pyStripL l).drop 2))))) ++
        ("</ul>").data) ∧
    generate_pdf_body (String.mk (joinNL ls)) =
      ls.map (fun l => PBlock.para
        (String.mk ('•' :: ' ' :: (pdfUrl (pdfItalic (pdfBold (pyStripL l)))).drop 2))
        PStyle.normal) := by
  have hjoin_ne : joinNL ls ≠ [] := by
    cases ls with
    | nil => exact absurd rfl hne
    | cons l0 rest =>
      have h0 : l0 ≠ [] := by
        intro hh
        have := hshape l0 (List.mem_cons_self _ _)
        rw [hh, pyStripL_nil] at this
        rcases this with h | h <;> exact absurd h (by simp)
      exact joinNL_cons_ne h0 rest
  have hsplit : splitLines (String.mk (joinNL ls)).data = ls := splitLines_joinNL ls hne hnl
  have hcontent : String.mk (joinNL ls) ≠ "" := by
    intro h
    exact hjoin_ne (congrArg String.data h)
  constructor
  · simp only [process_markdown_to_html]
    rw [if_neg hcontent, hsplit]
    rw [filterMap_all_some process_line
      (fun l => liBlock (htmlItalic (htmlBold (pyStripL ((pyStripL l).drop 2))))) ls
      (by
        intro l hl
        rcases hshape l hl with h | h
        · exact process_line_li_dash l ((pyStripL l).drop 2) h
        · exact process_line_li_star l ((pyStripL l).drop 2) h)]
    rw [show ls.map (fun l => liBlock (htmlItalic (htmlBold (pyStripL ((pyStripL l).drop 2))))) =
      (ls.map (fun l => htmlItalic (htmlBold (pyStripL ((pyStripL l).drop 2))))).map liBlock
      from by rw [List.map_map]; rfl]
    rw [show joinNL ((ls.map (fun l => htmlItalic (htmlBold (pyStripL ((pyStripL l).drop 2))))).map
      liBlock) = liRun (ls.map (fun l => htmlItalic (htmlBold (pyStripL ((pyStripL l).drop 2)))))
      from rfl]
    rw [wrapLists_liRun _ (by cases ls with | nil => exact absurd rfl hne | cons a b => simp)
      (by
        intro t ht
        rw [List.mem_map] at ht
        obtain ⟨l, hl, rfl⟩ := ht
        exact hclose l hl)]
  · simp only [generate_pdf_body]
    rw [hsplit]
    rw [filterMap_all_some pdfProcessLine
      (fun l => PBlock.para
        (String.mk ('•' :: ' ' :: (pdfUrl (pdfItalic (pdfBold (pyStripL l)))).drop 2))
        PStyle.normal) ls
      (by
        intro l hl
        rcases hshape l hl with h | h
        · exact pdfProcessLine_li_dash l ((pyStripL l).drop 2) h
        · exact pdfProcessLine_li_star l ((pyStripL l).drop 2) h)]

/-- C1 amended: the document back-end applies bold, then italic, then the
hyperlink pass to every non-blank line (on the whole line, before the prefix
is sliced off); the display back-end applies no inline transformation to
heading text, applies bold then italic (but not the hyperlink pass) to
list-item text, and applies bold, italic, then hyperlink to paragraph text,
each later pass operating on the output of the earlier passes. Stated at
three concrete lines and universally: for every line, each heading shape
emits its remainder verbatim in the display output, each list-item shape
emits the bold-then-italic transform, every other non-blank line gets the
full three-pass transform, and the document back-end applies all three
passes to the whole stripped line before slicing in every case. -/
theorem C1_amended_transforms :
    process_markdown_to_html ("# **b**") =
      "<h1 style=\"color: #1e40af; margin-top: 2.5rem; margin-bottom: 1.5rem; padding-bottom: 0.5rem; border-bottom: 3px solid #3b82f6;\">**b**</h1>" ∧
    generate_pdf_body ("# **b**") = [PBlock.para ("<b>b</b>") PStyle.heading1] ∧
    process_markdown_to_html ("- **b** https://e.g/x") =
      "<ul style=\"margin-bottom: 1.5rem; padding-left: 1.5rem;\"><li style=\"margin-bottom: 0.5rem;\"><strong>b</strong> https://e.g/x</li></ul>" ∧
    generate_pdf_body ("- **b** https://e.g/x") =
      [PBlock.para ("• <b>b</b> <link href=\"https://e.g/x\">https://e.g/x</link>") PStyle.normal] ∧
    process_markdown_to_html ("**x** *y* https://z") =
      "<p style=\"margin-bottom: 1rem; line-height: 1.6;\"><strong>x</strong> <em>y</em> <a href=\"https://z\" target=\"_blank\" style=\"color: #3b82f6; text-decoration: underline;\">https://z</a></p>" ∧
    (∀ l r : List Char, pyStripL l = '#' :: '#' :: '#' :: ' ' :: r →
      process_line l = some (h3Open ++ r ++ ("</h3>").data)) ∧
    (∀ l r : List Char, pyStripL l = '#' :: '#' :: ' ' :: r →
      process_line l = some (h2Open ++ r ++ ("</h2>").data)) ∧
    (∀ l r : List Char, pyStripL l = '#' :: ' ' :: r →
      process_line l = some (h1Open ++ r ++ ("</h1>").data)) ∧
    (∀ l r : List Char, pyStripL l = '-' :: ' ' :: r →
      process_line l = some (liOpen ++ htmlItalic (htmlBold (pyStripL r)) ++ ("</li>").data)) ∧
    (∀ l r : List Char, pyStripL l = '*' :: ' ' :: r →
      process_line l = some (liOpen ++ htmlItalic (htmlBold (pyStripL r)) ++ ("</li>").data)) ∧
    (∀ l : List Char, pyStripL l ≠ [] →
      (∀ r, pyStripL l ≠ '#' :: '#' :: '#' :: ' ' :: r) →
      (∀ r, pyStripL l ≠ '#' :: '#' :: ' ' :: r) →
      (∀ r, pyStripL l ≠ '#' :: ' ' :: r) →
      (∀ r, pyStripL l ≠ '-' :: ' ' :: r) →
      (∀ r, pyStripL l ≠ '*' :: ' ' :: r) →
      process_line l =
        some (pOpen ++ htmlUrl (htmlItalic (htmlBold (pyStripL l))) ++ ("</p>").data)) ∧
    (∀ l r : List Char, pyStripL l = '#' :: ' ' :: r →
      pdfProcessLine l = some (PBlock.para
        (String.mk ((pdfUrl (pdfItalic (pdfBold (pyStripL l)))).drop 2)) PStyle.heading1)) ∧
    (∀ l r : List Char, pyStripL l = '#' :: '#' :: ' ' :: r →
      pdfProcessLine l = some (PBlock.para
        (String.mk ((pdfUrl (pdfItalic (pdfBold (pyStripL l)))).drop 3)) PStyle.heading2)) ∧
    (∀ l r : List Char, pyStripL l = '#' :: '#' :: '#' :: ' ' :: r →
      pdfProcessLine l = some (PBlock.para
        (String.mk ((pdfUrl (pdfItalic (pdfBold (pyStripL l)))).drop 4)) PStyle.heading3)) ∧
    (∀ l r : List Char, pyStripL l = '-' :: ' ' :: r →
      pdfProcessLine l = some (PBlock.para
        (String.mk ('•' :: ' ' :: (pdfUrl (pdfItalic (pdfBold (pyStripL l)))).drop 2))
        PStyle.normal)) ∧
    (∀ l r : List Char, pyStripL l = '*' :: ' ' :: r →
      pdfProcessLine l = some (PBlock.para
        (String.mk ('•' :: ' ' :: (pdfUrl (pdfItalic (pdfBold (pyStripL l)))).drop 2))
        PStyle.normal)) ∧
    (∀ l : List Char, pyStripL l ≠ [] →
      (∀ r, pyStripL l ≠ '#' :: ' ' :: r) →
      (∀ r, pyStripL l ≠ '#' :: '#' :: ' ' :: r) →
      (∀ r, pyStripL l ≠ '#' :: '#' :: '#' :: ' ' :: r) →
      (∀ r, pyStripL l ≠ '-' :: ' ' :: r) →
      (∀ r, pyStripL l ≠ '*' :: ' ' :: r) →
      pdfProcessLine l = some (PBlock.para
        (String.mk (pdfUrl (pdfItalic (pdfBold (pyStripL l))))) PStyle.normal)) := by
  refine ⟨by decide, by decide, by decide, by decide, by decide,
    process_line_h3, process_line_h2, process_line_h1,
    process_line_li_dash, process_line_li_star, ?_,
    pdfProcessLine_h1, pdfProcessLine_h2, pdfProcessLine_h3,
    pdfProcessLine_li_dash, pdfProcessLine_li_star, ?_⟩
  · intro l hne k3 k2 k1 kd ks
    exact process_line_para l (pyStripL l) rfl hne k3 k2 k1 kd ks
  · intro l hne k1 k2 k3 kd ks
    exact pdfProcessLine_para l (pyStripL l) rfl hne k1 k2 k3 kd ks

theorem C1_amended_transforms_witness :
    process_line (("### t").data) = some (h3Open ++ ("t").data ++ ("</h3>").data) ∧
    process_line (("hello").data) =
      some (pOpen ++ htmlUrl (htmlItalic (htmlBold (pyStripL (("hello").data)))) ++
        ("</p>").data) :=
  ⟨C1_amended_transforms.2.2.2.2.2.1 (("### t").data) (("t").data) (by decide),
   C1_amended_transforms.2.2.2.2.2.2.2.2.2.2.1 (("hello").data) (by decide)
     (fun r h => absurd (congrArg (fun xs => xs.headD ' ') h : ('h' : Char) = '#')
       (by decide))
     (fun r h => absurd (congrArg (fun xs => xs.headD ' ') h : ('h' : Char) = '#')
       (by decide))
     (fun r h => absurd (congrArg (fun xs => xs.headD ' ') h : ('h' : Char) = '#')
       (by decide))
     (fun r h => absurd (congrArg (fun xs => xs.headD ' ') h : ('h' : Char) = '-')
       (by decide))
     (fun r h => absurd (congrArg (fun xs => xs.headD ' ') h : ('h' : Char) = '*')
       (by decide))⟩

/-- C2 amended: for every line whose stripped form starts with the two
characters dash-space or star-space, the display back-end emits a list item
whose text is bold then italic (no hyperlink pass) applied to the stripped
remainder; the document back-end applies bold, italic and hyperlink to the
entire stripped line and then drops its first two characters, which for
dash-space lines equals applying the transformations to the remainder, but
for star-space lines the leading star can be consumed by an italic match, so
the emitted text need not be the transformed remainder (for the line
`* a *b*` the emitted bullet text is `> a </i>b*`). -/
theorem C2_amended_bullets :
    (∀ l r : List Char, pyStripL l = '-' :: ' ' :: r →
      process_line l = some (liOpen ++ htmlItalic (htmlBold (pyStripL r)) ++ ("</li>").data)) ∧
    (∀ l r : List Char, pyStripL l = '*' :: ' ' :: r →
      process_line l = some (liOpen ++ htmlItalic (htmlBold (pyStripL r)) ++ ("</li>").data)) ∧
    (∀ l r : List Char, pyStripL l = '-' :: ' ' :: r →
      pdfProcessLine l = some (PBlock.para
        (String.mk ('•' :: ' ' :: pdfUrl (pdfItalic (pdfBold r)))) PStyle.normal)) ∧
    (∀ l r : List Char, pyStripL l = '*' :: ' ' :: r →
      pdfProcessLine l = some (PBlock.para
        (String.mk ('•' :: ' ' :: (pdfUrl (pdfItalic (pdfBold (pyStripL l)))).drop 2))
        PStyle.normal)) ∧
    generate_pdf_body ("* a *b*") = [PBlock.para ("• > a </i>b*") PStyle.normal] := by
  refine ⟨process_line_li_dash, process_line_li_star, ?_,
    pdfProcessLine_li_star, by decide⟩
  intro l r h
  rw [pdfProcessLine_li_dash l r h, h, pdfBold_dash, pdfItalic_dash, pdfUrl_dash]
  rfl

theorem C2_amended_bullets_witness :
    process_line (("* a").data) =
      some (liOpen ++ htmlItalic (htmlBold (pyStripL (("a").data))) ++ ("</li>").data) :=
  C2_amended_bullets.2.1 (("* a").data) (("a").data) (by decide)

/-- C4 counterexample: the claim says every run of consecutive list-item
lines is wrapped as one list container in the display output, but when a
rendered item text itself contains `</li>` the grouping regex stops at that
inner occurrence: `- a</li>x` followed by `- b` yields two separate `<ul>`
containers, not the single container the claim predicts. -/
theorem C4_counterexample :
    process_markdown_to_html ("- a</li>x\n- b") =
      "<ul style=\"margin-bottom: 1.5rem; padding-left: 1.5rem;\"><li style=\"margin-bottom: 0.5rem;\">a</li></ul>x</li>\n<ul style=\"margin-bottom: 1.5rem; padding-left: 1.5rem;\"><li style=\"margin-bottom: 0.5rem;\">b</li></ul>" ∧
    (process_markdown_to_html ("- a</li>x\n- b") ==
      "<ul style=\"margin-bottom: 1.5rem; padding-left: 1.5rem;\"><li style=\"margin-bottom: 0.5rem;\">a</li>x</li>\n<li style=\"margin-bottom: 0.5rem;\">b</li></ul>") = false := by
  refine ⟨by decide, by decide⟩

/-- C4 amended: `- a\n- b\n- c` renders on the display back-end as one
`<ul>` container holding the three `<li>` items, and on the document
back-end as three independent bulleted paragraphs; generally, every nonempty
run of consecutive list-item lines (dash-space or star-space after
stripping, no intervening heading or paragraph) whose rendered item texts
contain no `</li>` substring is wrapped as a single list container by the
display back-end only, while the document back-end emits one standalone
bulleted paragraph per item; if a rendered item text contains `</li>` the
display grouping splits, as the counterexample shows. -/
theorem C4_list_grouping :
    process_markdown_to_html ("- a\n- b\n- c") =
      "<ul style=\"margin-bottom: 1.5rem; padding-left: 1.5rem;\"><li style=\"margin-bottom: 0.5rem;\">a</li>\n<li style=\"margin-bottom: 0.5rem;\">b</li>\n<li style=\"margin-bottom: 0.5rem;\">c</li></ul>" ∧
    generate_pdf_body ("- a\n- b\n- c") =
      [PBlock.para ("• a") PStyle.normal, PBlock.para ("• b") PStyle.normal,
        PBlock.para ("• c") PStyle.normal] ∧
    ∀ ls : List (List Char), ls ≠ [] →
      (∀ l ∈ ls, '\n' ∉ l) →
      (∀ l ∈ ls, pyStripL l = '-' :: ' ' :: (pyStripL l).drop 2 ∨
        pyStripL l = '*' :: ' ' :: (pyStripL l).drop 2) →
      (∀ l ∈ ls,
        splitLiClose (htmlItalic (htmlBold (pyStripL ((pyStripL l).drop 2)))) = none) →
      process_markdown_to_html (String.mk (joinNL ls)) =
        String.mk (ulOpen ++
          liRun (ls.map (fun l => htmlItalic (htmlBold (pyStripL ((pyStripL l).drop 2))))) ++
          ("</ul>").data) ∧
      generate_pdf_body (String.mk (joinNL ls)) =
        ls.map (fun l => PBlock.para
          (String.mk ('•' :: ' ' :: (pdfUrl (pdfItalic (pdfBold (pyStripL l)))).drop 2))
          PStyle.normal) :=
  ⟨by decide, by decide, li_run_renders⟩

theorem C4_list_grouping_witness :
    process_markdown_to_html
        (String.mk (joinNL [("- a").data, ("* b").data, ("- c").data])) =
      String.mk (ulOpen ++
        liRun ([("- a").data, ("* b").data, ("- c").data].map
          (fun l => htmlItalic (htmlBold (pyStripL ((pyStripL l).drop 2))))) ++
        ("</ul>").data) :=
  (C4_list_grouping.2.2 [("- a").data, ("* b").data, ("- c").data]
    (by decide) (by decide) (by decide) (by decide)).1
